import Mathlib

/-!
# vidstats: a verification development for `main.go`

The program gathers YouTube channel ids, downloads their daily statistics in
batches of five, averages them per calendar month and writes a CSV table with
one row per channel and one column per month.

The first part of this file embeds the relevant Go code as Lean functions, the
second part states and proves properties of it.

Modelling conventions
* Go `int` is the 64-bit two's-complement integer: values are `Int`s and every
  arithmetic result is reduced by `wrapInt`.
* A `time.Time` is a record of its position on the time line (`instant`, the
  only thing `Before` and `After` look at) together with what its methods
  `Year()` and `Month()` return.  The calendar arithmetic of the standard
  library is not part of the program and is not modelled.
* Slices are lists.  The pointers `Channel` and `*[]*Stats` are assumed non-nil,
  as the program itself assumes (`yes goland, the value is not null`).
* A Go `map` is a list of entries with distinct keys; ranging over it visits
  the entries in an unspecified order, so the code that ranges over a map is a
  function of the entries in the order visited, and the theorems quantify
  over every rearrangement of the entries.
* Network calls (`GetChannels`, `DoRequest`) are parameters: the n-th call
  returns whatever the parameter says.
* A loop whose number of iterations is not bounded by the length of a list
  takes a fuel argument (the number of iterations it may run) and returns
  `none` when the fuel is used up before the loop condition fails.
-/

namespace Vidstats

/-! ## Machine integers -/

/-- Two's-complement reduction of a mathematical integer to a Go `int` (64 bits). -/
def wrapInt (x : Int) : Int := (x + 2 ^ 63) % 2 ^ 64 - 2 ^ 63

/-- Go `x + y` (and `x += y`) on `int`. -/
def addInt (x y : Int) : Int := wrapInt (x + y)

/-- Go `x / y` on `int` for `y != 0`: the quotient truncated toward zero. -/
def divInt (x y : Int) : Int := wrapInt (Int.tdiv x y)

/-- The values a Go `int` can hold. -/
def inIntRange (x : Int) : Prop := -(2 ^ 63) ≤ x ∧ x < 2 ^ 63

instance (x : Int) : Decidable (inIntRange x) :=
  inferInstanceAs (Decidable (-(2 ^ 63) ≤ x ∧ x < 2 ^ 63))

/-! ## Data model -/

/-- A `time.Time` value: `instant` is its position on the time line in nanoseconds
since the Unix epoch, `Year` and `Month` are the results of the methods of the
same name (in the location the value carries). -/
structure Time where
  instant : Int
  Year : Int
  Month : Nat
deriving DecidableEq, Repr

/-- Go `t.Before(u)`. -/
def Time.Before (t u : Time) : Bool := decide (t.instant < u.instant)

/-- Go `t.After(u)`. -/
def Time.After (t u : Time) : Bool := decide (u.instant < t.instant)

/-- Go `time.Unix(0, 0)`. -/
def unixEpoch : Time := { instant := 0, Year := 1970, Month := 1 }

/-- Go `type Stats struct`. -/
structure Stats where
  RecordedAt : Time
  Subscribers : Int
  Views : Int
  Videos : Int
deriving DecidableEq, Repr

/-- Go `type Channel *struct` (the pointer is non-nil and so is `Stats`). -/
structure Channel where
  ID : String
  Title : String
  Stats : List Stats
deriving DecidableEq, Repr

/-! ## Library functions used by the program -/

/-- Go `strconv.Itoa`. -/
def Itoa (n : Int) : String := toString n

/-- Go `time.Month.String`. -/
def MonthString (m : Nat) : String :=
  match m with
  | 1 => "January"
  | 2 => "February"
  | 3 => "March"
  | 4 => "April"
  | 5 => "May"
  | 6 => "June"
  | 7 => "July"
  | 8 => "August"
  | 9 => "September"
  | 10 => "October"
  | 11 => "November"
  | 12 => "December"
  | k => "%!Month(" ++ toString k ++ ")"

/-- The values taken by `i` in `for i := lo; i <= hi; i++`. -/
def forRange (lo hi : Nat) : List Nat := List.range' lo (hi + 1 - lo)

/-! ## `min` -/

/-- Go `func min(x, y int) int`. -/
def min (x y : Int) : Int :=
  if x < y then x else y

/-! ## `createListing` -/

/-- The body of one iteration of either outer loop of `createListing`: scan all
samples, append the views of every sample of month `i` and year `year`, and
append an empty cell when none was found. -/
def scanMonth (st : List Stats) (year : Int) (line : List String) (i : Nat) : List String :=
  let r := st.foldl
    (fun (acc : List String × Bool) z2 =>
      if z2.RecordedAt.Month = i ∧ z2.RecordedAt.Year = year then
        (acc.1 ++ [Itoa z2.Views], true)
      else acc)
    (line, false)
  if r.2 = false then r.1 ++ [""] else r.1

/-- Go `func createListing(channel Channel, startYear, endYear int, startMonth, endMonth time.Month) []string`. -/
def createListing (channel : Channel) (startYear endYear : Int) (startMonth endMonth : Nat) :
    List String :=
  let line := [channel.Title]
  let st := channel.Stats
  let line := (forRange startMonth 12).foldl (scanMonth st startYear) line
  let line := (forRange 1 endMonth).foldl (scanMonth st endYear) line
  line

/-! ## The CSV part of `main` -/

/-- Go `var scienceTeam`. -/
def scienceTeam : List String :=
  ["UC4a-Gbdw7vOaccHmFo40b9g", "UCYO_jab_esuFRV4b17AJtAw", "UCBcljXmuXPok9kT_VGA3adg", "UCJDIGW0ywWw9Kh9_vtwqxXA",
   "UCEBb1b_L6zDS3xTUrIALZOw", "UCoHhuummRZaIVX7bD4t2czg", "UC9-y-6csu5WGm29I7JiwpnA", "UC5029sGTV3cQWk9gh90X6-Q",
   "UC2Few2jF7zWvuxtXgoyat8g", "UCcF_QqLWOatOO5vHHlzK_Hw", "UCq0EGvLTyy-LLT1oUSO_0FQ", "UCoxcjq-8xIDTYp3uz647V5A",
   "UCLv7Gzc3VTO6ggFlXY0sOyw", "UC4EY_qnSeAP1xGsh61eOoJA", "UCmdTJKCLBVMQdPC3_kE7t1w", "UCLnGGRG__uGSPLBLzyhg8dQ",
   "UC-EnprmCZ3OXyAoG7vjVNCA", "UCYgL81lc7DOLNhnel1_J6Vg", "UCThyZpUXvT1atGZ0P1-2Vng", "UCIJ7ElhHMlz9lKh8_-dh4rA",
   "UC4XB8AQCiucZ7324-UaYA4A", "UC6KD6HqLbd24LOI26GeHeWw", "UCiEHVhv0SBMpP75JbzJShqw", "UCngehmCV-65FikHYUV1_qXA",
   "UCMWg8e_4hC6p5abek1VGuMw", "UCIuFVDoogw9ujgLbpTCM3sQ", "UCL9No2CVecC_8WazyduwHaw", "UCCabJxhy6wokraEGgFcYD5g",
   "UCC4FftDQK5gj4Ru2MgvraTw", "UCshPTHWDVDFPT3J-V2xBGRA", "UCxjYJHqLxAyMI0jHEbUnNtg", "UC3g-w83Cb5pEAu5UmRrge-A"]

/-- The variables that the classification loop of `main` updates. -/
structure Classified where
  scienceChannels : List Channel
  others : List Channel
  startDate : Time
  endDate : Time
deriving DecidableEq, Repr

/-- The inner loop `for _, s := range scienceTeam` of `main`: the channel is
appended once for every entry of the team list equal to its id. -/
def matchTeam (team : List String) (c : Channel) (scienceChannels : List Channel) :
    List Channel × Bool :=
  team.foldl
    (fun (acc : List Channel × Bool) s =>
      if c.ID = s then (acc.1 ++ [c], true) else acc)
    (scienceChannels, false)

/-- The loop `for _, z := range *c.Stats` of `main` that tracks the first and
the last date. -/
def scanDates (stats : List Stats) (startDate endDate : Time) : Time × Time :=
  stats.foldl
    (fun (d : Time × Time) z =>
      let s := if z.RecordedAt.Before d.1 then z.RecordedAt else d.1
      let e := if z.RecordedAt.After d.2 then z.RecordedAt else d.2
      (s, e))
    (startDate, endDate)

/-- One iteration of `for _, c := range channels` in `main`.  `sortSlice` is
the effect of `sort.Slice` with the `RecordedAt.Before` comparison; as the
channel is a pointer and the sort is in place, the channel that was appended to
`scienceChannels` or `others` is the one with the sorted samples. -/
def classifyStep (sortSlice : List Stats → List Stats) (a : Classified) (c : Channel) :
    Classified :=
  let c1 : Channel := { c with Stats := sortSlice c.Stats }
  let r := matchTeam scienceTeam c1 a.scienceChannels
  let others := if r.2 = false then a.others ++ [c1] else a.others
  let d := scanDates c.Stats a.startDate a.endDate
  { scienceChannels := r.1, others := others, startDate := d.1, endDate := d.2 }

/-- The loop `for _, c := range channels` of `main`; `now` is `time.Now()`. -/
def classify (sortSlice : List Stats → List Stats) (now : Time) (channels : List Channel) :
    Classified :=
  channels.foldl (classifyStep sortSlice)
    { scienceChannels := [], others := [], startDate := now, endDate := unixEpoch }

/-- The header that `main` builds from `startYear`, `startMonth`, `endYear`, `endMonth`. -/
def buildHeader (startYear endYear : Int) (startMonth endMonth : Nat) : List String :=
  let header := ["Channel name"]
  let header := (forRange startMonth 12).foldl
    (fun h i => h ++ [MonthString i ++ "-" ++ Itoa startYear]) header
  let header := (forRange 1 endMonth).foldl
    (fun h i => h ++ [MonthString i ++ "-" ++ Itoa endYear]) header
  header

/-- The value of `csvContent` when `main` calls `csvExport`, for a non-nil
channel list. -/
def csvContent (sortSlice : List Stats → List Stats) (now : Time) (channels : List Channel) :
    List (List String) :=
  let a := classify sortSlice now channels
  let startYear := a.startDate.Year
  let startMonth := a.startDate.Month + 1
  let endYear := a.endDate.Year
  let endMonth := a.endDate.Month
  let header := buildHeader startYear endYear startMonth endMonth
  let csv := [header]
  let csv := a.scienceChannels.foldl
    (fun csv v => csv ++ [createListing v startYear endYear startMonth endMonth]) csv
  let csv := a.others.foldl
    (fun csv v => csv ++ [createListing v startYear endYear startMonth endMonth]) csv
  csv

/-! ## `downloadStats`: discovery of channel ids -/

/-- Go `m[c] = struct{}{}` on a `map[string]struct{}`: the key is added unless
it is already present. -/
def setInsert (m : List String) (c : String) : List String :=
  if c ∈ m then m else m ++ [c]

/-- Go `func addChannels(m *map[string]struct{}, channels ...string)`. -/
def addChannels (m : List String) (channels : List String) : List String :=
  channels.foldl setInsert m

/-- The loop `for len(cl) < 110` of `downloadStats`.  `GetChannels n` is the
result of the call number `n` (counted from 0) of `GetChannels`, `calls` is the
number of calls made so far.  The result is the number of calls made and the
final set; the sleep after a failed call has no effect on either. -/
def discoverLoop (GetChannels : Nat → Except String (List String)) :
    Nat → Nat → List String → Option (Nat × List String)
  | 0, calls, cl => if cl.length < 110 then none else some (calls, cl)
  | fuel + 1, calls, cl =>
    if cl.length < 110 then
      match GetChannels calls with
      | .error _ => discoverLoop GetChannels fuel (calls + 1) cl
      | .ok st => discoverLoop GetChannels fuel (calls + 1) (st.foldl setInsert cl)
    else some (calls, cl)

/-- The first part of `downloadStats`, from an arbitrary seed list in place of
`scienceTeam`. -/
def discoverFrom (seed : List String) (GetChannels : Nat → Except String (List String))
    (fuel : Nat) : Option (Nat × List String) :=
  discoverLoop GetChannels fuel 0 (addChannels [] seed)

/-! ## `downloadStats`: batched requests -/

/-- What the loop `for len(keys) > 0` has done when it stops: the ids sent with
each request, in request order, and either the collected `stats` or the error
with which `log.Panic` was called. -/
structure FetchResult where
  requests : List (List String)
  outcome : Except String (List Channel)

/-- The loop `for len(keys) > 0` of `downloadStats`.  `DoRequest n x` is the
result of the call number `n` of `DoRequest`, made for the ids `x` (the URL is
a fixed text followed by `strings.Join(x, ",")`). -/
def fetchLoop (DoRequest : Nat → List String → Except String (List Channel)) :
    Nat → List String → List Channel → List (List String) → Option FetchResult
  | 0, keys, stats, requests =>
    if keys.length > 0 then none else some { requests := requests, outcome := .ok stats }
  | fuel + 1, keys, stats, requests =>
    if keys.length > 0 then
      let what := min 5 keys.length
      let x := keys.take what.toNat
      let keys := keys.drop what.toNat
      match DoRequest requests.length x with
      | .error err => some { requests := requests ++ [x], outcome := .error err }
      | .ok statz => fetchLoop DoRequest fuel keys (stats ++ statz) (requests ++ [x])
    else some { requests := requests, outcome := .ok stats }

/-- The batched download of `downloadStats` for the id list `keys`; the loop
removes at least one id per iteration, so `keys.length` iterations suffice. -/
def fetchAll (DoRequest : Nat → List String → Except String (List Channel))
    (keys : List String) : Option FetchResult :=
  fetchLoop DoRequest keys.length keys [] []

/-! ## `downloadStats`: monthly averages -/

/-- Go `m[k]` on a `map[time.Month][]Stats`: the value stored under `k`, the
nil slice when there is none. -/
def mapGet (m : List (Nat × List Stats)) (k : Nat) : List Stats :=
  match m with
  | [] => []
  | (k1, v1) :: rest => if k1 = k then v1 else mapGet rest k

/-- Go `m[k] = v` on a `map[time.Month][]Stats`. -/
def mapSet (m : List (Nat × List Stats)) (k : Nat) (v : List Stats) : List (Nat × List Stats) :=
  match m with
  | [] => [(k, v)]
  | (k1, v1) :: rest => if k1 = k then (k1, v) :: rest else (k1, v1) :: mapSet rest k v

/-- The loop `for _, z := range *v.Stats` that fills the map `m`. -/
def monthBuckets (stats : List Stats) : List (Nat × List Stats) :=
  stats.foldl
    (fun m z =>
      if z.Views ≠ 0 then
        mapSet m z.RecordedAt.Month (mapGet m z.RecordedAt.Month ++ [z])
      else m)
    []

/-- The sums computed by `for _, z := range v` (subscribers, views, videos). -/
def sumBucket (v : List Stats) : Int × Int × Int :=
  v.foldl
    (fun (acc : Int × Int × Int) z =>
      (addInt acc.1 z.Subscribers, addInt acc.2.1 z.Views, addInt acc.2.2 z.Videos))
    (0, 0, 0)

/-- The body of `for _, v := range m`: the sample appended to `n` for the
bucket `v`, if any. -/
def bucketAverage (v : List Stats) : Option Stats :=
  let vl : Int := v.length
  if vl ≠ 0 then
    match v with
    | [] => none
    | v0 :: _ =>
      let at_ := v0.RecordedAt
      let s := sumBucket v
      some { RecordedAt := at_, Subscribers := divInt s.1 vl, Views := divInt s.2.1 vl,
             Videos := divInt s.2.2 vl }
  else none

/-- The loop `for _, v := range m`, for the entries of `m` in the order in
which the range statement visits them. -/
def averageBuckets (entries : List (Nat × List Stats)) : List Stats :=
  entries.foldl
    (fun n kv =>
      match bucketAverage kv.2 with
      | some s => n ++ [s]
      | none => n)
    []

/-- The orders in which `for _, v := range m` may visit the entries of the map
filled from `stats`: every entry once. -/
def VisitOrder (stats : List Stats) (entries : List (Nat × List Stats)) : Prop :=
  entries.Perm (monthBuckets stats)

/-! ## Definitions that follow the wording of the specification -/

/-- Specification wording: the month columns of a header, `"<MonthName>-<Year>"`
for the months `lo` through `hi` of `year`. -/
def monthLabels (lo hi : Nat) (year : Int) : List String :=
  (forRange lo hi).map (fun i => MonthString i ++ "-" ++ Itoa year)

/-- All samples of all channels, in input order. -/
def allStats (channels : List Channel) : List Stats :=
  channels.flatMap (fun c => c.Stats)

/-- The samples of `st` recorded in month `i` of year `year`. -/
def matching (st : List Stats) (year : Int) (i : Nat) : List Stats :=
  st.filter (fun z => decide (z.RecordedAt.Month = i ∧ z.RecordedAt.Year = year))

/-- The header months of a window, in column order: `(month, year)` pairs. -/
def windowMonths (startYear endYear : Int) (startMonth endMonth : Nat) : List (Nat × Int) :=
  (forRange startMonth 12).map (fun i => (i, startYear)) ++
    (forRange 1 endMonth).map (fun i => (i, endYear))

/-- Specification wording: the ids seen after the first `n` discovery results,
seed first. -/
def consumedIds (seed : List String) (GetChannels : Nat → Except String (List String))
    (n : Nat) : List String :=
  seed ++ (List.range n).flatMap
    (fun i => match GetChannels i with
      | .ok st => st
      | .error _ => [])

/-- Specification wording: the number of distinct ids after the first `n`
discovery results. -/
def distinctCount (seed : List String) (GetChannels : Nat → Except String (List String))
    (n : Nat) : Nat :=
  (consumedIds seed GetChannels n).toFinset.card

/-- Specification wording: the samples with non-zero views recorded in
calendar month `k`, in input order. -/
def validOfMonth (stats : List Stats) (k : Nat) : List Stats :=
  stats.filter (fun z => decide (z.Views ≠ 0 ∧ z.RecordedAt.Month = k))

/-- Specification wording: the floor of the arithmetic mean of the integers `xs`. -/
def floorMean (xs : List Int) : Int :=
  Int.floor ((xs.sum : ℚ) / (xs.length : ℚ))

/-- Specification wording: the monthly sample of month `k`: the date of the
first valid sample of the month and the floor means of the three counters. -/
def monthlySample (stats : List Stats) (k : Nat) : Option Stats :=
  match validOfMonth stats k with
  | [] => none
  | z0 :: rest =>
    some { RecordedAt := z0.RecordedAt,
           Subscribers := floorMean ((z0 :: rest).map (fun z => z.Subscribers)),
           Views := floorMean ((z0 :: rest).map (fun z => z.Views)),
           Videos := floorMean ((z0 :: rest).map (fun z => z.Videos)) }

/-- The cells that one iteration of an outer loop of `createListing` appends:
the views of every matching sample, or one empty cell when there is none. -/
def monthCells (st : List Stats) (year : Int) (i : Nat) : List String :=
  match matching st year i with
  | [] => [""]
  | z :: zs => (z :: zs).map (fun z => Itoa z.Views)

/-! ## Concrete inputs -/

/-- One possible behaviour of `sort.Slice` with the `RecordedAt.Before`
comparison: a stable sort by instant. -/
def stableSort : List Stats → List Stats :=
  List.insertionSort (fun a b => a.RecordedAt.instant ≤ b.RecordedAt.instant)

/-- A run of the program on 2026-11-01 (UTC). -/
def nowT : Time := { instant := 1793491200000000000, Year := 2026, Month := 11 }

/-- A sample recorded on 2023-11-15 (UTC). -/
def sNov : Stats :=
  { RecordedAt := { instant := 1700006400000000000, Year := 2023, Month := 11 },
    Subscribers := 1, Views := 5, Videos := 1 }

/-- A sample recorded on 2023-12-01 (UTC). -/
def sDecA : Stats :=
  { RecordedAt := { instant := 1701388800000000000, Year := 2023, Month := 12 },
    Subscribers := 1, Views := 10, Videos := 1 }

/-- A sample recorded on 2023-12-02 (UTC). -/
def sDecB : Stats :=
  { RecordedAt := { instant := 1701475200000000000, Year := 2023, Month := 12 },
    Subscribers := 1, Views := 20, Videos := 1 }

/-- A sample recorded on 2024-02-15 (UTC). -/
def sFeb : Stats :=
  { RecordedAt := { instant := 1707955200000000000, Year := 2024, Month := 2 },
    Subscribers := 1, Views := 30, Videos := 1 }

/-- A sample recorded on 2024-03-10 (UTC). -/
def sMar : Stats :=
  { RecordedAt := { instant := 1710028800000000000, Year := 2024, Month := 3 },
    Subscribers := 1, Views := 40, Videos := 1 }

/-- A sample recorded on 2024-07-20 (UTC). -/
def sJul : Stats :=
  { RecordedAt := { instant := 1721433600000000000, Year := 2024, Month := 7 },
    Subscribers := 1, Views := 50, Videos := 1 }

/-- A channel with samples in 2023-11 and 2024-02 only. -/
def novFebChannel : Channel := { ID := "UCnovfeb", Title := "novfeb", Stats := [sNov, sFeb] }

/-- A channel with all samples in 2024, between March and July. -/
def marJulChannel : Channel := { ID := "UCmarjul", Title := "marjul", Stats := [sMar, sJul] }

/-- A channel with two samples in December 2023 and none in January 2024. -/
def dupChannel : Channel :=
  { ID := "UCdup", Title := "dup", Stats := [sNov, sDecA, sDecB, sFeb] }

/-- A service that answers every request with one channel per id, without samples. -/
def echoRequest (_ : Nat) (x : List String) : Except String (List Channel) :=
  .ok (x.map (fun k => { ID := k, Title := k, Stats := [] }))

/-- Seven channel ids. -/
def sevenKeys : List String := ["k1", "k2", "k3", "k4", "k5", "k6", "k7"]

/-- Fifty scraped ids `"UC<i>"` for `i` from `lo` on. -/
def scraped (lo : Nat) : List String :=
  (List.range' lo 50).map (fun i => "UC" ++ toString i)

/-- A discovery run: the first call fails, the second returns fifty new ids and
two ids of the seed, every later call returns fifty ids of which ten were
already returned by the second call. -/
def sampleDiscovery (n : Nat) : Except String (List String) :=
  match n with
  | 0 => .error "timeout"
  | 1 => .ok ("UC4a-Gbdw7vOaccHmFo40b9g" :: "UC3g-w83Cb5pEAu5UmRrge-A" :: scraped 0)
  | _ => .ok (scraped 40)

/-- Whether every counter of every sample is non-negative. -/
def NonNegCounters (stats : List Stats) : Prop :=
  ∀ z ∈ stats, 0 ≤ z.Subscribers ∧ 0 ≤ z.Views ∧ 0 ≤ z.Videos

instance (stats : List Stats) : Decidable (NonNegCounters stats) :=
  inferInstanceAs (Decidable (∀ z ∈ stats, 0 ≤ z.Subscribers ∧ 0 ≤ z.Views ∧ 0 ≤ z.Videos))

/-- Whether, for every month that occurs among the samples, the sum of each
counter over the non-zero-view samples of that month is below 2^63, the range
of a Go `int`. -/
def MonthSumsFit (stats : List Stats) : Prop :=
  ∀ z0 ∈ stats,
    ((validOfMonth stats z0.RecordedAt.Month).map (fun z => z.Subscribers)).sum < 2 ^ 63
    ∧ ((validOfMonth stats z0.RecordedAt.Month).map (fun z => z.Views)).sum < 2 ^ 63
    ∧ ((validOfMonth stats z0.RecordedAt.Month).map (fun z => z.Videos)).sum < 2 ^ 63

instance (stats : List Stats) : Decidable (MonthSumsFit stats) :=
  inferInstanceAs (Decidable (∀ z0 ∈ stats,
    ((validOfMonth stats z0.RecordedAt.Month).map (fun z => z.Subscribers)).sum < 2 ^ 63
    ∧ ((validOfMonth stats z0.RecordedAt.Month).map (fun z => z.Views)).sum < 2 ^ 63
    ∧ ((validOfMonth stats z0.RecordedAt.Month).map (fun z => z.Videos)).sum < 2 ^ 63))

/-- Whether every counter of every sample is a value of a Go `int`. -/
def CountersInRange (stats : List Stats) : Prop :=
  ∀ z ∈ stats, inIntRange z.Subscribers ∧ inIntRange z.Views ∧ inIntRange z.Videos

instance (stats : List Stats) : Decidable (CountersInRange stats) :=
  inferInstanceAs (Decidable (∀ z ∈ stats,
    inIntRange z.Subscribers ∧ inIntRange z.Views ∧ inIntRange z.Videos))

/-- Two samples of May 2020 (the 1st and the 2nd, UTC) with 2^62 views each. -/
def bigStats : List Stats :=
  [{ RecordedAt := { instant := 1588291200000000000, Year := 2020, Month := 5 },
     Subscribers := 1, Views := 4611686018427387904, Videos := 1 },
   { RecordedAt := { instant := 1588377600000000000, Year := 2020, Month := 5 },
     Subscribers := 1, Views := 4611686018427387904, Videos := 1 }]

/-- Daily samples of two months, one of them with zero views. -/
def dailyStats : List Stats :=
  [sNov,
   { RecordedAt := { instant := 1700092800000000000, Year := 2023, Month := 11 },
     Subscribers := 2, Views := 8, Videos := 1 },
   sDecA,
   { RecordedAt := { instant := 1701561600000000000, Year := 2023, Month := 12 },
     Subscribers := 7, Views := 0, Videos := 1 },
   sDecB]

/-- An aggregated channel: one sample per month, none with zero views. -/
def monthlyStats : List Stats := [sNov, sDecA, sFeb]

/-! # Properties -/

/-! ## `createListing` and the header -/

theorem scanMonth_foldl (st : List Stats) (year : Int) (i : Nat) (line : List String) (b : Bool) :
    st.foldl
      (fun (acc : List String × Bool) z2 =>
        if z2.RecordedAt.Month = i ∧ z2.RecordedAt.Year = year then
          (acc.1 ++ [Itoa z2.Views], true)
        else acc)
      (line, b)
    = (line ++ (matching st year i).map (fun z => Itoa z.Views),
       b || !(matching st year i).isEmpty) := by
  induction st generalizing line b with
  | nil => simp [matching]
  | cons z zs ih =>
    rw [List.foldl_cons]
    by_cases h : z.RecordedAt.Month = i ∧ z.RecordedAt.Year = year
    · rw [if_pos h, ih]
      have hm : matching (z :: zs) year i = z :: matching zs year i := by
        simp [matching, h]
      simp [hm]
    · rw [if_neg h, ih]
      have hm : matching (z :: zs) year i = matching zs year i := by
        simp only [matching]
        rw [List.filter_cons_of_neg]
        simpa using h
      simp [hm]

theorem scanMonth_eq (st : List Stats) (year : Int) (line : List String) (i : Nat) :
    scanMonth st year line i = line ++ monthCells st year i := by
  unfold scanMonth
  simp only [scanMonth_foldl, monthCells]
  cases h : matching st year i with
  | nil => simp
  | cons z zs => simp

theorem foldl_scanMonth (st : List Stats) (year : Int) (is : List Nat) (line : List String) :
    is.foldl (scanMonth st year) line = line ++ is.flatMap (monthCells st year) := by
  induction is generalizing line with
  | nil => simp
  | cons i is ih => simp [ih, scanMonth_eq, List.append_assoc]

/-- The row built by `createListing`: the title, then the cells of each header
month in column order. -/
theorem createListing_eq (channel : Channel) (startYear endYear : Int) (startMonth endMonth : Nat) :
    createListing channel startYear endYear startMonth endMonth =
      channel.Title ::
        (windowMonths startYear endYear startMonth endMonth).flatMap
          (fun p => monthCells channel.Stats p.2 p.1) := by
  simp [createListing, foldl_scanMonth, windowMonths, List.flatMap_map, List.flatMap_append]

theorem foldl_labels (year : Int) (is : List Nat) (h : List String) :
    is.foldl (fun h i => h ++ [MonthString i ++ "-" ++ Itoa year]) h =
      h ++ is.map (fun i => MonthString i ++ "-" ++ Itoa year) := by
  induction is generalizing h with
  | nil => simp
  | cons i is ih => simp [ih]

/-- The header built by `main`: the fixed first cell, then one label per header month. -/
theorem buildHeader_eq (startYear endYear : Int) (startMonth endMonth : Nat) :
    buildHeader startYear endYear startMonth endMonth =
      "Channel name" :: (monthLabels startMonth 12 startYear ++ monthLabels 1 endMonth endYear) := by
  simp [buildHeader, foldl_labels, monthLabels]

theorem buildHeader_eq_map (startYear endYear : Int) (startMonth endMonth : Nat) :
    buildHeader startYear endYear startMonth endMonth =
      "Channel name" :: (windowMonths startYear endYear startMonth endMonth).map
        (fun p => MonthString p.1 ++ "-" ++ Itoa p.2) := by
  simp [buildHeader_eq, monthLabels, windowMonths, Function.comp_def]

/-! ## The classification loop of `main` -/

theorem scienceTeam_nodup : scienceTeam.Nodup := by decide

theorem matchTeam_foldl (team : List String) (c : Channel) (sc : List Channel) (b : Bool) :
    team.foldl
      (fun (acc : List Channel × Bool) s =>
        if c.ID = s then (acc.1 ++ [c], true) else acc)
      (sc, b)
    = (sc ++ List.replicate (team.count c.ID) c, b || decide (c.ID ∈ team)) := by
  induction team generalizing sc b with
  | nil => simp
  | cons s team ih =>
    rw [List.foldl_cons]
    by_cases h : c.ID = s
    · subst h
      rw [if_pos rfl, ih]
      simp [List.replicate_succ, List.append_assoc]
    · rw [if_neg h, ih]
      have h2 : ¬ s = c.ID := fun e => h e.symm
      simp [List.count_cons, h2, h]

theorem matchTeam_scienceTeam (c : Channel) (sc : List Channel) :
    matchTeam scienceTeam c sc =
      (if c.ID ∈ scienceTeam then sc ++ [c] else sc, decide (c.ID ∈ scienceTeam)) := by
  unfold matchTeam
  rw [matchTeam_foldl]
  by_cases h : c.ID ∈ scienceTeam
  · rw [List.count_eq_one_of_mem scienceTeam_nodup h]
    simp [h]
  · rw [List.count_eq_zero_of_not_mem h]
    simp [h]

theorem scanDates_append (xs ys : List Stats) (s e : Time) :
    scanDates (xs ++ ys) s e = scanDates ys (scanDates xs s e).1 (scanDates xs s e).2 := by
  simp [scanDates, List.foldl_append]

/-- The state of the classification loop after any number of channels. -/
theorem classify_foldl (sortSlice : List Stats → List Stats) (channels : List Channel)
    (a : Classified) :
    channels.foldl (classifyStep sortSlice) a =
      { scienceChannels := a.scienceChannels ++
          (channels.filter (fun c => decide (c.ID ∈ scienceTeam))).map
            (fun c => { c with Stats := sortSlice c.Stats }),
        others := a.others ++
          (channels.filter (fun c => !decide (c.ID ∈ scienceTeam))).map
            (fun c => { c with Stats := sortSlice c.Stats }),
        startDate := (scanDates (allStats channels) a.startDate a.endDate).1,
        endDate := (scanDates (allStats channels) a.startDate a.endDate).2 } := by
  induction channels generalizing a with
  | nil => simp [allStats, scanDates]
  | cons c cs ih =>
    rw [List.foldl_cons, ih]
    have hall : allStats (c :: cs) = c.Stats ++ allStats cs := by simp [allStats]
    rw [hall, scanDates_append]
    simp only [classifyStep, matchTeam_scienceTeam]
    by_cases h : c.ID ∈ scienceTeam
    · simp [h, List.append_assoc]
    · simp [h, List.append_assoc]

theorem classify_eq (sortSlice : List Stats → List Stats) (now : Time) (channels : List Channel) :
    classify sortSlice now channels =
      { scienceChannels :=
          (channels.filter (fun c => decide (c.ID ∈ scienceTeam))).map
            (fun c => { c with Stats := sortSlice c.Stats }),
        others :=
          (channels.filter (fun c => !decide (c.ID ∈ scienceTeam))).map
            (fun c => { c with Stats := sortSlice c.Stats }),
        startDate := (scanDates (allStats channels) now unixEpoch).1,
        endDate := (scanDates (allStats channels) now unixEpoch).2 } := by
  unfold classify
  rw [classify_foldl]
  simp

theorem foldl_rows (f : Channel → List String) (vs : List Channel) (csv : List (List String)) :
    vs.foldl (fun csv v => csv ++ [f v]) csv = csv ++ vs.map f := by
  induction vs generalizing csv with
  | nil => simp
  | cons v vs ih => simp [ih]

/-- The table handed to `csvExport`: the header, the rows of the science
channels, the rows of the other channels. -/
theorem csvContent_eq (sortSlice : List Stats → List Stats) (now : Time) (channels : List Channel) :
    csvContent sortSlice now channels =
      buildHeader (classify sortSlice now channels).startDate.Year
          (classify sortSlice now channels).endDate.Year
          ((classify sortSlice now channels).startDate.Month + 1)
          (classify sortSlice now channels).endDate.Month ::
        ((classify sortSlice now channels).scienceChannels ++
          (classify sortSlice now channels).others).map
          (fun v => createListing v (classify sortSlice now channels).startDate.Year
            (classify sortSlice now channels).endDate.Year
            ((classify sortSlice now channels).startDate.Month + 1)
            (classify sortSlice now channels).endDate.Month) := by
  simp only [csvContent, foldl_rows]
  simp

/-- C4. The data rows that `main` emits after the header are the rows of the
channels whose id is in `scienceTeam`, in input order, followed by the rows of
the remaining channels, in input order; every input channel gets exactly one
row.  A row is `createListing` of the channel (with its samples sorted) for the
window computed by `main`. -/
theorem rows_known_first_then_others (sortSlice : List Stats → List Stats) (now : Time)
    (channels : List Channel) :
    (csvContent sortSlice now channels).tail =
      ((channels.filter (fun c => decide (c.ID ∈ scienceTeam))) ++
        (channels.filter (fun c => !decide (c.ID ∈ scienceTeam)))).map
        (fun c => createListing { c with Stats := sortSlice c.Stats }
          (classify sortSlice now channels).startDate.Year
          (classify sortSlice now channels).endDate.Year
          ((classify sortSlice now channels).startDate.Month + 1)
          (classify sortSlice now channels).endDate.Month)
    ∧ (csvContent sortSlice now channels).tail.length = channels.length
    ∧ ((channels.filter (fun c => decide (c.ID ∈ scienceTeam))) ++
        (channels.filter (fun c => !decide (c.ID ∈ scienceTeam)))).Perm channels := by
  have hperm : ((channels.filter (fun c => decide (c.ID ∈ scienceTeam))) ++
        (channels.filter (fun c => !decide (c.ID ∈ scienceTeam)))).Perm channels :=
    List.filter_append_perm _ channels
  have hrows : (csvContent sortSlice now channels).tail =
      ((channels.filter (fun c => decide (c.ID ∈ scienceTeam))) ++
        (channels.filter (fun c => !decide (c.ID ∈ scienceTeam)))).map
        (fun c => createListing { c with Stats := sortSlice c.Stats }
          (classify sortSlice now channels).startDate.Year
          (classify sortSlice now channels).endDate.Year
          ((classify sortSlice now channels).startDate.Month + 1)
          (classify sortSlice now channels).endDate.Month) := by
    rw [csvContent_eq]
    generalize hsy : (classify sortSlice now channels).startDate.Year = sy
    generalize hey : (classify sortSlice now channels).endDate.Year = ey
    generalize hsm : (classify sortSlice now channels).startDate.Month = sm
    generalize hem : (classify sortSlice now channels).endDate.Month = em
    rw [classify_eq]
    simp [List.map_append, List.map_map, Function.comp_def]
  refine ⟨hrows, ?_, hperm⟩
  rw [hrows, List.length_map]
  exact hperm.length_eq

/-! ## The reporting window and the header -/

theorem scanDates_fst (stats : List Stats) (s e : Time) :
    (scanDates stats s e).1 =
      stats.foldl (fun s z => if z.RecordedAt.Before s then z.RecordedAt else s) s := by
  unfold scanDates
  induction stats generalizing s e with
  | nil => rfl
  | cons z zs ih => simp only [List.foldl_cons]; exact ih _ _

theorem scanDates_snd (stats : List Stats) (s e : Time) :
    (scanDates stats s e).2 =
      stats.foldl (fun e z => if z.RecordedAt.After e then z.RecordedAt else e) e := by
  unfold scanDates
  induction stats generalizing s e with
  | nil => rfl
  | cons z zs ih => simp only [List.foldl_cons]; exact ih _ _

/-- Once the running minimum is the earliest date `E`, or a sample dated `E` is
still to come, the loop ends with `E`. -/
theorem startDate_fold (E : Time) (stats : List Stats) (s : Time)
    (hall : ∀ z ∈ stats, z.RecordedAt = E ∨ E.Before z.RecordedAt = true)
    (hs : s = E ∨ (E.Before s = true ∧ ∃ z ∈ stats, z.RecordedAt = E)) :
    stats.foldl (fun s z => if z.RecordedAt.Before s then z.RecordedAt else s) s = E := by
  induction stats generalizing s with
  | nil =>
    rcases hs with hs | ⟨_, z, hz, _⟩
    · simpa using hs
    · simp at hz
  | cons z zs ih =>
    rw [List.foldl_cons]
    apply ih
    · intro y hy; exact hall y (List.mem_cons_of_mem _ hy)
    · have hz := hall z (List.mem_cons_self _ _)
      rcases hs with hs | ⟨hsE, y, hy, hyE⟩
      · subst hs
        left
        rcases hz with hz | hz
        · simp [hz]
        · have : ¬ z.RecordedAt.Before s = true := by
            simp only [Time.Before, decide_eq_true_eq] at hz ⊢
            omega
          simp [this]
      · rcases hz with hz | hz
        · left
          rw [hz, if_pos hsE]
        · rcases List.mem_cons.mp hy with rfl | hy2
          · left
            rw [hyE, if_pos hsE]
          · by_cases hb : z.RecordedAt.Before s = true
            · rw [if_pos hb]; right; exact ⟨hz, y, hy2, hyE⟩
            · rw [if_neg hb]; right; exact ⟨hsE, y, hy2, hyE⟩

theorem endDate_fold (E : Time) (stats : List Stats) (e : Time)
    (hall : ∀ z ∈ stats, z.RecordedAt = E ∨ z.RecordedAt.Before E = true)
    (he : e = E ∨ (E.After e = true ∧ ∃ z ∈ stats, z.RecordedAt = E)) :
    stats.foldl (fun e z => if z.RecordedAt.After e then z.RecordedAt else e) e = E := by
  induction stats generalizing e with
  | nil =>
    rcases he with he | ⟨_, z, hz, _⟩
    · simpa using he
    · simp at hz
  | cons z zs ih =>
    rw [List.foldl_cons]
    apply ih
    · intro y hy; exact hall y (List.mem_cons_of_mem _ hy)
    · have hz := hall z (List.mem_cons_self _ _)
      rcases he with he | ⟨heE, y, hy, hyE⟩
      · subst he
        left
        rcases hz with hz | hz
        · simp [hz]
        · have : ¬ z.RecordedAt.After e = true := by
            simp only [Time.Before, Time.After, decide_eq_true_eq] at hz ⊢
            omega
          simp [this]
      · rcases hz with hz | hz
        · left
          rw [hz, if_pos heE]
        · rcases List.mem_cons.mp hy with rfl | hy2
          · left
            rw [hyE, if_pos heE]
          · by_cases hb : z.RecordedAt.After e = true
            · rw [if_pos hb]; right
              refine ⟨?_, y, hy2, hyE⟩
              simp only [Time.Before, Time.After, decide_eq_true_eq] at hz ⊢
              exact hz
            · rw [if_neg hb]; right; exact ⟨heE, y, hy2, hyE⟩

/-- The header of `main` in terms of the earliest sample `e` and the latest
sample `l` of the input: the month columns start with the month after that
of `e`. -/
theorem header_of_first_last (sortSlice : List Stats → List Stats) (now : Time)
    (channels : List Channel) (e l : Stats)
    (he : e ∈ allStats channels) (hl : l ∈ allStats channels)
    (hfirst : ∀ z ∈ allStats channels,
      z.RecordedAt = e.RecordedAt ∨ e.RecordedAt.Before z.RecordedAt = true)
    (hlast : ∀ z ∈ allStats channels,
      z.RecordedAt = l.RecordedAt ∨ z.RecordedAt.Before l.RecordedAt = true)
    (hnow : e.RecordedAt.Before now = true) (hepoch : l.RecordedAt.After unixEpoch = true) :
    (csvContent sortSlice now channels).head? =
      some ("Channel name" ::
        (monthLabels (e.RecordedAt.Month + 1) 12 e.RecordedAt.Year ++
          monthLabels 1 l.RecordedAt.Month l.RecordedAt.Year)) := by
  have hs : (classify sortSlice now channels).startDate = e.RecordedAt := by
    rw [classify_eq]
    simp only [scanDates_fst]
    exact startDate_fold _ _ _ hfirst (Or.inr ⟨hnow, e, he, rfl⟩)
  have hE : (classify sortSlice now channels).endDate = l.RecordedAt := by
    rw [classify_eq]
    simp only [scanDates_snd]
    exact endDate_fold _ _ _ hlast (Or.inr ⟨hepoch, l, hl, rfl⟩)
  rw [csvContent_eq, hs, hE, buildHeader_eq]
  rfl

/-- C2, as stated, fails: with samples in 2023-11 and 2024-02 only, the month
columns of the header start with December 2023, not November 2023. -/
theorem header_nov_feb_starts_in_december :
    (csvContent stableSort nowT [novFebChannel]).head? =
        some ["Channel name", "December-2023", "January-2024", "February-2024"]
    ∧ (csvContent stableSort nowT [novFebChannel]).head? ≠
        some ["Channel name", "November-2023", "December-2023", "January-2024",
          "February-2024"]
    ∧ (csvContent stableSort nowT [novFebChannel]).head? ≠
        some ("Channel name" :: (monthLabels 11 12 2023 ++ monthLabels 1 2 2024)) := by
  decide

/-- C2, amended.  When the earliest sample `e` of the input (over all channels)
is recorded in month m1 of year y1 and the latest sample `l` in month m2 of
year y1 + 1 (with `e` before the time of the run and `l` after the Unix epoch),
the header built by `main` is `"Channel name"` followed by the labels
`"<MonthName>-<Year>"` of the months m1 + 1 through December of y1 and then of
January through m2 of y1 + 1: the month of the earliest sample itself has no
column. -/
theorem header_two_year_window (sortSlice : List Stats → List Stats) (now : Time)
    (channels : List Channel) (e l : Stats)
    (he : e ∈ allStats channels) (hl : l ∈ allStats channels)
    (hfirst : ∀ z ∈ allStats channels,
      z.RecordedAt = e.RecordedAt ∨ e.RecordedAt.Before z.RecordedAt = true)
    (hlast : ∀ z ∈ allStats channels,
      z.RecordedAt = l.RecordedAt ∨ z.RecordedAt.Before l.RecordedAt = true)
    (hnow : e.RecordedAt.Before now = true) (hepoch : l.RecordedAt.After unixEpoch = true)
    (hyear : l.RecordedAt.Year = e.RecordedAt.Year + 1) :
    (csvContent sortSlice now channels).head? =
      some ("Channel name" ::
        (monthLabels (e.RecordedAt.Month + 1) 12 e.RecordedAt.Year ++
          monthLabels 1 l.RecordedAt.Month (e.RecordedAt.Year + 1))) := by
  rw [← hyear]
  exact header_of_first_last sortSlice now channels e l he hl hfirst hlast hnow hepoch

/-- The amended C2 at the input with samples in 2023-11 and 2024-02 only. -/
theorem header_two_year_window_witness :
    (csvContent stableSort nowT [novFebChannel]).head? =
      some ("Channel name" :: (monthLabels 12 12 2023 ++ monthLabels 1 2 2024)) :=
  header_two_year_window stableSort nowT [novFebChannel] sNov sFeb
    (by decide) (by decide) (by decide) (by decide) (by decide) (by decide) (by decide)

/-- C3, as stated, fails: with all samples in 2024 between March and July the
header has sixteen month columns, April through December followed by January
through July, so April to July occur twice and March has its one column in
the second pass only. -/
theorem header_mar_jul_repeats_months :
    (csvContent stableSort nowT [marJulChannel]).head? =
        some ["Channel name", "April-2024", "May-2024", "June-2024", "July-2024",
          "August-2024", "September-2024", "October-2024", "November-2024", "December-2024",
          "January-2024", "February-2024", "March-2024", "April-2024", "May-2024",
          "June-2024", "July-2024"]
    ∧ (csvContent stableSort nowT [marJulChannel]).head? ≠
        some ["Channel name", "March-2024", "April-2024", "May-2024", "June-2024",
          "July-2024"]
    ∧ ¬ ((csvContent stableSort nowT [marJulChannel]).headD []).Nodup := by
  decide

theorem MonthString_injOn (x k : Nat) (hx1 : 1 ≤ x) (hx : x ≤ 12) (hk1 : 1 ≤ k) (hk : k ≤ 12)
    (h : MonthString x = MonthString k) : x = k := by
  have key : ∀ a : Fin 13, ∀ b : Fin 13, 1 ≤ a.val → 1 ≤ b.val →
      MonthString a.val = MonthString b.val → a.val = b.val := by decide
  exact key ⟨x, by omega⟩ ⟨k, by omega⟩ hx1 hk1 h

theorem String_append_right_cancel (a b s : String) (h : a ++ s = b ++ s) : a = b := by
  have h2 := congrArg String.data h
  rw [String.data_append, String.data_append] at h2
  exact String.ext (List.append_cancel_right h2)

theorem label_injOn (year : Int) (x k : Nat) (hx1 : 1 ≤ x) (hx : x ≤ 12) (hk1 : 1 ≤ k)
    (hk : k ≤ 12)
    (h : MonthString x ++ "-" ++ Itoa year = MonthString k ++ "-" ++ Itoa year) : x = k :=
  MonthString_injOn x k hx1 hx hk1 hk
    (String_append_right_cancel _ _ _ (String_append_right_cancel _ _ _ h))

theorem count_map_of_injOn {α β : Type} [DecidableEq α] [DecidableEq β] (f : α → β) (k : α)
    (l : List α) (h : ∀ x ∈ l, f x = f k → x = k) : (l.map f).count (f k) = l.count k := by
  induction l with
  | nil => rfl
  | cons x xs ih =>
    have ih2 := ih (fun y hy => h y (List.mem_cons_of_mem _ hy))
    rw [List.map_cons, List.count_cons, List.count_cons, ih2]
    by_cases hxk : x = k
    · subst hxk; simp
    · have : ¬ f x = f k := fun e => hxk (h x (List.mem_cons_self _ _) e)
      simp [hxk, this]

theorem count_forRange (lo hi k : Nat) :
    (forRange lo hi).count k = if lo ≤ k ∧ k ≤ hi then 1 else 0 := by
  unfold forRange
  by_cases h : lo ≤ k ∧ k ≤ hi
  · rw [if_pos h]
    apply List.count_eq_one_of_mem (List.nodup_range' lo (hi + 1 - lo))
    rw [List.mem_range'_1]
    omega
  · rw [if_neg h]
    apply List.count_eq_zero_of_not_mem
    rw [List.mem_range'_1]
    omega

/-- How often the label of month `k` occurs among the labels of the months `lo` to `hi`. -/
theorem count_monthLabels (year : Int) (lo hi k : Nat) (hlo : 1 ≤ lo) (hhi : hi ≤ 12)
    (hk1 : 1 ≤ k) (hk : k ≤ 12) :
    (monthLabels lo hi year).count (MonthString k ++ "-" ++ Itoa year) =
      if lo ≤ k ∧ k ≤ hi then 1 else 0 := by
  unfold monthLabels
  rw [count_map_of_injOn (fun i => MonthString i ++ "-" ++ Itoa year) k, count_forRange]
  intro x hx hxk
  have hxr : lo ≤ x ∧ x < lo + (hi + 1 - lo) := by
    have := hx
    unfold forRange at this
    rwa [List.mem_range'_1] at this
  exact label_injOn year x k (by omega) (by omega) hk1 hk hxk

/-- C3, amended.  When the earliest sample `e` and the latest sample `l` of the
input fall in the same year y, in months m1 and m2 (both in 1..12, `e` before
the time of the run and `l` after the Unix epoch), the header built by `main`
is `"Channel name"` followed by the labels of the months m1 + 1 through
December of y and then by the labels of January through m2 of y, as both range
loops run for the same year.  The label of a month k of that year therefore
occurs once if m1 < k and once more if k ≤ m2: the months after m1 up to m2
have two columns each. -/
theorem header_single_year_window (sortSlice : List Stats → List Stats) (now : Time)
    (channels : List Channel) (e l : Stats)
    (he : e ∈ allStats channels) (hl : l ∈ allStats channels)
    (hfirst : ∀ z ∈ allStats channels,
      z.RecordedAt = e.RecordedAt ∨ e.RecordedAt.Before z.RecordedAt = true)
    (hlast : ∀ z ∈ allStats channels,
      z.RecordedAt = l.RecordedAt ∨ z.RecordedAt.Before l.RecordedAt = true)
    (hnow : e.RecordedAt.Before now = true) (hepoch : l.RecordedAt.After unixEpoch = true)
    (hyear : l.RecordedAt.Year = e.RecordedAt.Year)
    (hm1 : 1 ≤ e.RecordedAt.Month ∧ e.RecordedAt.Month ≤ 12)
    (hm2 : 1 ≤ l.RecordedAt.Month ∧ l.RecordedAt.Month ≤ 12) :
    (csvContent sortSlice now channels).head? =
      some ("Channel name" ::
        (monthLabels (e.RecordedAt.Month + 1) 12 e.RecordedAt.Year ++
          monthLabels 1 l.RecordedAt.Month e.RecordedAt.Year))
    ∧ ∀ k : Nat, 1 ≤ k → k ≤ 12 →
        (monthLabels (e.RecordedAt.Month + 1) 12 e.RecordedAt.Year ++
          monthLabels 1 l.RecordedAt.Month e.RecordedAt.Year).count
            (MonthString k ++ "-" ++ Itoa e.RecordedAt.Year) =
          (if e.RecordedAt.Month < k then 1 else 0) +
            (if k ≤ l.RecordedAt.Month then 1 else 0) := by
  constructor
  · have h := header_of_first_last sortSlice now channels e l he hl hfirst hlast hnow hepoch
    rw [hyear] at h
    exact h
  · intro k hk1 hk
    rw [List.count_append, count_monthLabels _ _ _ _ (by omega) (by omega) hk1 hk,
      count_monthLabels _ _ _ _ (by omega) hm2.2 hk1 hk]
    congr 1
    · by_cases h : e.RecordedAt.Month < k
      · rw [if_pos h, if_pos]; omega
      · rw [if_neg h, if_neg]; omega
    · by_cases h : k ≤ l.RecordedAt.Month
      · rw [if_pos h, if_pos]; omega
      · rw [if_neg h, if_neg]; omega

/-- The amended C3 at the input with all samples in 2024 between March and July. -/
theorem header_single_year_window_witness :
    (csvContent stableSort nowT [marJulChannel]).head? =
      some ("Channel name" :: (monthLabels 4 12 2024 ++ monthLabels 1 7 2024))
    ∧ ∀ k : Nat, 1 ≤ k → k ≤ 12 →
        (monthLabels 4 12 2024 ++ monthLabels 1 7 2024).count
            (MonthString k ++ "-" ++ Itoa 2024) =
          (if 3 < k then 1 else 0) + (if k ≤ 7 then 1 else 0) :=
  header_single_year_window stableSort nowT [marJulChannel] sMar sJul
    (by decide) (by decide) (by decide) (by decide) (by decide) (by decide) (by decide)
    (by decide) (by decide)

/-! ## Rows against the header -/

/-- When no header month is matched by more than one sample, the row is the
title followed by exactly one cell per header month. -/
theorem createListing_of_unique (channel : Channel) (startYear endYear : Int)
    (startMonth endMonth : Nat)
    (huniq : ∀ p ∈ windowMonths startYear endYear startMonth endMonth,
      (matching channel.Stats p.2 p.1).length ≤ 1) :
    createListing channel startYear endYear startMonth endMonth =
      channel.Title :: (windowMonths startYear endYear startMonth endMonth).map
        (fun p => ((matching channel.Stats p.2 p.1).map (fun z => Itoa z.Views)).headD "") := by
  rw [createListing_eq]
  congr 1
  generalize windowMonths startYear endYear startMonth endMonth = W at huniq
  induction W with
  | nil => rfl
  | cons p W ih =>
    have hp := huniq p (List.mem_cons_self _ _)
    have ih2 := ih (fun q hq => huniq q (List.mem_cons_of_mem _ hq))
    rw [List.flatMap_cons, List.map_cons, ih2]
    unfold monthCells
    cases hm : matching channel.Stats p.2 p.1 with
    | nil => simp
    | cons z zs =>
      rw [hm] at hp
      have : zs = [] := by
        cases zs with
        | nil => rfl
        | cons y ys => simp at hp
      subst this
      simp

/-- When no header month is matched by more than one sample, the row has as
many cells as the header, and the cell under a header month without a sample is
the empty string. -/
theorem row_aligned_of_unique (channel : Channel) (startYear endYear : Int)
    (startMonth endMonth : Nat)
    (huniq : ∀ p ∈ windowMonths startYear endYear startMonth endMonth,
      (matching channel.Stats p.2 p.1).length ≤ 1) :
    (createListing channel startYear endYear startMonth endMonth).length =
      (buildHeader startYear endYear startMonth endMonth).length
    ∧ ∀ (j : Nat) (p : Nat × Int),
        (windowMonths startYear endYear startMonth endMonth)[j]? = some p →
        matching channel.Stats p.2 p.1 = [] →
        (buildHeader startYear endYear startMonth endMonth)[j + 1]? =
            some (MonthString p.1 ++ "-" ++ Itoa p.2)
        ∧ (createListing channel startYear endYear startMonth endMonth)[j + 1]? = some "" := by
  rw [createListing_of_unique channel startYear endYear startMonth endMonth huniq,
    buildHeader_eq_map]
  refine ⟨by simp, ?_⟩
  intro j p hj hm
  simp [List.getElem?_cons_succ, List.getElem?_map, hj, hm]

/-- A header month without a matching sample contributes exactly one cell, the
empty string, whatever the other samples are. -/
theorem monthCells_of_no_match (st : List Stats) (year : Int) (i : Nat)
    (h : matching st year i = []) : monthCells st year i = [""] := by
  simp [monthCells, h]

theorem monthCells_length (st : List Stats) (year : Int) (i : Nat) :
    (monthCells st year i).length = Nat.max 1 (matching st year i).length := by
  unfold monthCells
  cases h : matching st year i with
  | nil => rfl
  | cons z zs =>
    simp only [List.length_map, List.length_cons]
    exact (Nat.max_eq_right (by omega)).symm

/-- The number of cells of a row: the title, and for every header month one
cell per matching sample, or one cell when there is none. -/
theorem createListing_length (channel : Channel) (startYear endYear : Int)
    (startMonth endMonth : Nat) :
    (createListing channel startYear endYear startMonth endMonth).length =
      1 + ((windowMonths startYear endYear startMonth endMonth).map
        (fun p => Nat.max 1 (matching channel.Stats p.2 p.1).length)).sum := by
  rw [createListing_eq, List.length_cons, Nat.add_comm]
  congr 1
  generalize windowMonths startYear endYear startMonth endMonth = W
  induction W with
  | nil => rfl
  | cons p W ih =>
    rw [List.flatMap_cons, List.length_append, ih, monthCells_length, List.map_cons,
      List.sum_cons]

/-- A row is never shorter than the header, and it is longer as soon as some
header month is matched by two samples. -/
theorem row_longer_of_duplicate (channel : Channel) (startYear endYear : Int)
    (startMonth endMonth : Nat) :
    (buildHeader startYear endYear startMonth endMonth).length ≤
      (createListing channel startYear endYear startMonth endMonth).length
    ∧ ((∃ p ∈ windowMonths startYear endYear startMonth endMonth,
          2 ≤ (matching channel.Stats p.2 p.1).length) →
        (buildHeader startYear endYear startMonth endMonth).length <
          (createListing channel startYear endYear startMonth endMonth).length) := by
  rw [createListing_length, buildHeader_eq_map, List.length_cons, List.length_map]
  generalize windowMonths startYear endYear startMonth endMonth = W
  have key : W.length ≤ (W.map (fun p => Nat.max 1 (matching channel.Stats p.2 p.1).length)).sum
      ∧ ((∃ p ∈ W, 2 ≤ (matching channel.Stats p.2 p.1).length) →
        W.length < (W.map (fun p => Nat.max 1 (matching channel.Stats p.2 p.1).length)).sum) := by
    induction W with
    | nil => simp
    | cons q W ih =>
      obtain ⟨ih1, ih2⟩ := ih
      have hq : 1 ≤ Nat.max 1 (matching channel.Stats q.2 q.1).length := Nat.le_max_left _ _
      rw [List.map_cons, List.sum_cons, List.length_cons]
      refine ⟨by omega, ?_⟩
      rintro ⟨p, hp, hp2⟩
      rcases List.mem_cons.mp hp with rfl | hpW
      · have : 2 ≤ Nat.max 1 (matching channel.Stats p.2 p.1).length :=
          le_trans hp2 (Nat.le_max_right _ _)
        omega
      · have := ih2 ⟨p, hpW, hp2⟩
        omega
  constructor
  · omega
  · intro h
    have := key.2 h
    omega

/-- C1 fails on the code.  For a channel with two samples in December 2023 the
table of `main` has a header of four cells and a row of five cells. -/
theorem row_longer_than_header :
    csvContent stableSort nowT [dupChannel] =
      [["Channel name", "December-2023", "January-2024", "February-2024"],
       ["dup", "10", "20", "", "30"]]
    ∧ (createListing dupChannel 2023 2024 12 2).length = 5
    ∧ (buildHeader 2023 2024 12 2).length = 4 := by
  decide

/-- C8 fails on the code.  The channel has no sample in January 2024, yet the
cell in the column of `"January-2024"` is `"20"`, the views of the second
December sample; the empty cell of January is one column further right. -/
theorem empty_cell_out_of_column :
    matching dupChannel.Stats 2024 1 = []
    ∧ (buildHeader 2023 2024 12 2)[2]? = some "January-2024"
    ∧ (createListing dupChannel 2023 2024 12 2)[2]? = some "20"
    ∧ (createListing dupChannel 2023 2024 12 2)[3]? = some "" := by
  decide

/-- C9 fails on the code.  Two samples match December 2023 and the row holds a
cell for each of them, `"10"` and `"20"`, instead of the single cell `"20"`. -/
theorem two_cells_for_one_month :
    matching dupChannel.Stats 2023 12 = [sDecA, sDecB]
    ∧ createListing dupChannel 2023 2024 12 2 = ["dup", "10", "20", "", "30"]
    ∧ createListing dupChannel 2023 2024 12 2 ≠ ["dup", "20", "", "30"] := by
  decide

/-! ## The batched download -/

theorem min_five_toNat (n : Nat) : (min 5 (n : Int)).toNat = if 5 < n then 5 else n := by
  unfold min
  by_cases h : 5 < n
  · have : (5 : Int) < (n : Int) := by omega
    rw [if_pos this, if_pos h]; rfl
  · have : ¬ (5 : Int) < (n : Int) := by omega
    rw [if_neg this, if_neg h]; simp

/-- The loop invariant of the request loop when every request succeeds, with
response `resp n x` for the call number `n` made for the ids `x`. -/
theorem fetchLoop_ok (DoRequest : Nat → List String → Except String (List Channel))
    (resp : Nat → List String → List Channel)
    (hok : ∀ n x, DoRequest n x = .ok (resp n x))
    (fuel : Nat) (keys : List String) (stats : List Channel) (requests : List (List String))
    (hfuel : keys.length ≤ fuel) :
    ∃ cs : List (List String),
      fetchLoop DoRequest fuel keys stats requests =
        some { requests := requests ++ cs,
               outcome := .ok (stats ++
                 (cs.enumFrom requests.length).flatMap (fun p => resp p.1 p.2)) }
      ∧ cs.length = (keys.length + 4) / 5
      ∧ (∀ x ∈ cs, 1 ≤ x.length ∧ x.length ≤ 5)
      ∧ cs.flatten = keys := by
  induction fuel generalizing keys stats requests with
  | zero =>
    have hk : keys = [] := List.length_eq_zero.mp (by omega)
    subst hk
    exact ⟨[], by simp [fetchLoop], by simp, by simp, by simp⟩
  | succ fuel ih =>
    by_cases hpos : keys.length > 0
    · have hw : (min 5 (keys.length : Int)).toNat = if 5 < keys.length then 5 else keys.length :=
        min_five_toNat keys.length
      obtain ⟨w, hwdef⟩ : ∃ w, w = (min 5 (keys.length : Int)).toNat := ⟨_, rfl⟩
      have hw1 : 1 ≤ w ∧ w ≤ 5 ∧ w ≤ keys.length ∧ (keys.length < 5 → w = keys.length)
          ∧ (5 ≤ keys.length → w = 5) := by
        rw [hwdef, hw]
        by_cases h5 : 5 < keys.length
        · rw [if_pos h5]; omega
        · rw [if_neg h5]; omega
      have hdrop : (keys.drop w).length ≤ fuel := by
        rw [List.length_drop]; omega
      obtain ⟨cs, hrun, hlen, hsz, hflat⟩ :=
        ih (keys.drop w) (stats ++ resp requests.length (keys.take w))
          (requests ++ [keys.take w]) hdrop
      refine ⟨keys.take w :: cs, ?_, ?_, ?_, ?_⟩
      · rw [fetchLoop, if_pos hpos]
        simp only [← hwdef, hok]
        rw [hrun]
        simp [List.enumFrom_cons, List.append_assoc]
      · rw [List.length_cons, hlen, List.length_drop]
        omega
      · intro x hx
        rcases List.mem_cons.mp hx with rfl | hx
        · rw [List.length_take]
          omega
        · exact hsz x hx
      · rw [List.flatten_cons, hflat, List.take_append_drop]
    · have hk : keys = [] := List.length_eq_zero.mp (by omega)
      subst hk
      exact ⟨[], by simp [fetchLoop], by simp, by simp, by simp⟩

/-- The request loop stops for every id list and every behaviour of the
service, within the fuel given by `fetchAll`. -/
theorem fetchLoop_terminates (DoRequest : Nat → List String → Except String (List Channel))
    (fuel : Nat) (keys : List String) (stats : List Channel) (requests : List (List String))
    (hfuel : keys.length ≤ fuel) :
    (fetchLoop DoRequest fuel keys stats requests).isSome = true := by
  induction fuel generalizing keys stats requests with
  | zero =>
    have hk : keys = [] := List.length_eq_zero.mp (by omega)
    subst hk
    simp [fetchLoop]
  | succ fuel ih =>
    by_cases hpos : keys.length > 0
    · rw [fetchLoop, if_pos hpos]
      simp only
      cases hreq : DoRequest requests.length
          (List.take (min 5 (keys.length : Int)).toNat keys) with
      | error err => simp
      | ok statz =>
        simp only
        apply ih
        rw [List.length_drop, min_five_toNat]
        split <;> omega
    · have hk : keys = [] := List.length_eq_zero.mp (by omega)
      subst hk
      simp [fetchLoop]

theorem ceil_div_five (n : Nat) : ⌈(n : ℚ) / 5⌉₊ = (n + 4) / 5 := by
  apply le_antisymm
  · rw [Nat.ceil_le]
    rw [div_le_iff₀ (by norm_num)]
    have h : n ≤ (n + 4) / 5 * 5 := by omega
    exact_mod_cast h
  · by_contra hlt
    push_neg at hlt
    have h1 : ⌈(n : ℚ) / 5⌉₊ + 1 ≤ (n + 4) / 5 := hlt
    have h2 : ((n : ℚ) / 5) ≤ (⌈(n : ℚ) / 5⌉₊ : ℚ) := Nat.le_ceil _
    rw [div_le_iff₀ (by norm_num)] at h2
    have h3 : n ≤ ⌈(n : ℚ) / 5⌉₊ * 5 := by exact_mod_cast h2
    omega

/-- C6. For every list of N channel ids, when every request is answered, the
request loop of `downloadStats` stops after exactly ceil(N/5) calls of
`DoRequest`; each call carries between 1 and 5 ids, the id lists of the calls
concatenated in call order are the original list, and the resulting `stats` is
the concatenation of the responses in call order. -/
theorem fetchAll_batches (DoRequest : Nat → List String → Except String (List Channel))
    (resp : Nat → List String → List Channel)
    (hok : ∀ n x, DoRequest n x = .ok (resp n x)) (keys : List String) :
    ∃ r : FetchResult,
      fetchAll DoRequest keys = some r
      ∧ r.requests.length = ⌈(keys.length : ℚ) / 5⌉₊
      ∧ (∀ x ∈ r.requests, 1 ≤ x.length ∧ x.length ≤ 5)
      ∧ r.requests.flatten = keys
      ∧ r.outcome = .ok ((r.requests.enumFrom 0).flatMap (fun p => resp p.1 p.2)) := by
  obtain ⟨cs, hrun, hlen, hsz, hflat⟩ :=
    fetchLoop_ok DoRequest resp hok keys.length keys [] [] (le_refl _)
  refine ⟨_, hrun, ?_, ?_, ?_, ?_⟩
  · rw [ceil_div_five]; simpa using hlen
  · simpa using hsz
  · simpa using hflat
  · simp

/-- C6 for seven ids and a service that answers every request: two requests. -/
theorem fetchAll_batches_witness :
    ∃ r : FetchResult,
      fetchAll echoRequest sevenKeys = some r
      ∧ r.requests.length = ⌈(sevenKeys.length : ℚ) / 5⌉₊
      ∧ (∀ x ∈ r.requests, 1 ≤ x.length ∧ x.length ≤ 5)
      ∧ r.requests.flatten = sevenKeys
      ∧ r.outcome = .ok ((r.requests.enumFrom 0).flatMap
          (fun p => p.2.map (fun k => ({ ID := k, Title := k, Stats := [] } : Channel)))) :=
  fetchAll_batches echoRequest
    (fun _ x => x.map (fun k => ({ ID := k, Title := k, Stats := [] } : Channel)))
    (fun _ _ => rfl) sevenKeys

/-- The requests made for seven ids: five ids, then two. -/
theorem fetchAll_seven :
    (fetchAll echoRequest sevenKeys).map (fun r => r.requests) =
      some [["k1", "k2", "k3", "k4", "k5"], ["k6", "k7"]] := by
  decide

/-! ## Discovery of channel ids -/

theorem setInsert_nodup (m : List String) (c : String) (h : m.Nodup) : (setInsert m c).Nodup := by
  unfold setInsert
  by_cases hc : c ∈ m
  · rw [if_pos hc]; exact h
  · rw [if_neg hc]
    rw [List.nodup_append]
    refine ⟨h, List.nodup_singleton c, ?_⟩
    intro x hx hx2
    rw [List.mem_singleton] at hx2
    subst hx2
    exact hc hx

theorem mem_setInsert (m : List String) (c x : String) : x ∈ setInsert m c ↔ x ∈ m ∨ x = c := by
  unfold setInsert
  by_cases hc : c ∈ m
  · rw [if_pos hc]
    constructor
    · intro h; exact Or.inl h
    · rintro (h | h)
      · exact h
      · subst h; exact hc
  · rw [if_neg hc]; simp

theorem foldl_setInsert_nodup (l m : List String) (h : m.Nodup) :
    (l.foldl setInsert m).Nodup := by
  induction l generalizing m with
  | nil => exact h
  | cons c l ih => exact ih _ (setInsert_nodup m c h)

theorem mem_foldl_setInsert (l m : List String) (x : String) :
    x ∈ l.foldl setInsert m ↔ x ∈ m ∨ x ∈ l := by
  induction l generalizing m with
  | nil => simp
  | cons c l ih =>
    rw [List.foldl_cons, ih, mem_setInsert, List.mem_cons]
    tauto

/-- The set built by `addChannels` from the empty map has no repeated id, holds
exactly the ids given, and its size is the number of distinct ids given. -/
theorem addChannels_set (l : List String) :
    (addChannels [] l).Nodup
    ∧ (∀ x, x ∈ addChannels [] l ↔ x ∈ l)
    ∧ (addChannels [] l).length = l.toFinset.card := by
  have hnd : (addChannels [] l).Nodup := foldl_setInsert_nodup l [] List.nodup_nil
  have hmem : ∀ x, x ∈ addChannels [] l ↔ x ∈ l := by
    intro x
    unfold addChannels
    rw [mem_foldl_setInsert]
    simp
  refine ⟨hnd, hmem, ?_⟩
  rw [← List.toFinset_card_of_nodup hnd]
  congr 1
  ext x
  simp [hmem]

theorem consumedIds_succ (seed : List String) (GetChannels : Nat → Except String (List String))
    (k : Nat) :
    consumedIds seed GetChannels (k + 1) =
      consumedIds seed GetChannels k ++
        (match GetChannels k with
          | .ok st => st
          | .error _ => []) := by
  simp [consumedIds, List.range_succ, List.flatMap_append, List.append_assoc]

theorem addChannels_consumed_succ_ok (seed : List String)
    (GetChannels : Nat → Except String (List String)) (k : Nat) (st : List String)
    (h : GetChannels k = .ok st) :
    addChannels [] (consumedIds seed GetChannels (k + 1)) =
      st.foldl setInsert (addChannels [] (consumedIds seed GetChannels k)) := by
  rw [consumedIds_succ, h]
  simp [addChannels, List.foldl_append]

theorem addChannels_consumed_succ_error (seed : List String)
    (GetChannels : Nat → Except String (List String)) (k : Nat) (err : String)
    (h : GetChannels k = .error err) :
    addChannels [] (consumedIds seed GetChannels (k + 1)) =
      addChannels [] (consumedIds seed GetChannels k) := by
  rw [consumedIds_succ, h]
  simp

theorem addChannels_consumed_length (seed : List String)
    (GetChannels : Nat → Except String (List String)) (k : Nat) :
    (addChannels [] (consumedIds seed GetChannels k)).length =
      distinctCount seed GetChannels k :=
  (addChannels_set _).2.2

/-- The discovery loop, started after `calls` calls with the set of the ids
seen so far, stops after call number `n` when `n` is the first count of calls
at which 110 distinct ids have been seen. -/
theorem discoverLoop_reaches (seed : List String)
    (GetChannels : Nat → Except String (List String)) (n : Nat)
    (hreach : 110 ≤ distinctCount seed GetChannels n)
    (hmin : ∀ k, k < n → distinctCount seed GetChannels k < 110)
    (fuel calls : Nat) (hcalls : calls ≤ n) (hfuel : n - calls ≤ fuel) :
    discoverLoop GetChannels fuel calls (addChannels [] (consumedIds seed GetChannels calls)) =
      some (n, addChannels [] (consumedIds seed GetChannels n)) := by
  induction fuel generalizing calls with
  | zero =>
    have hc : calls = n := by omega
    subst hc
    rw [discoverLoop, if_neg]
    rw [addChannels_consumed_length]; omega
  | succ fuel ih =>
    by_cases hc : calls = n
    · subst hc
      rw [discoverLoop, if_neg]
      rw [addChannels_consumed_length]; omega
    · have hlt : calls < n := by omega
      have hsmall := hmin calls hlt
      rw [discoverLoop, if_pos (by rw [addChannels_consumed_length]; exact hsmall)]
      cases hg : GetChannels calls with
      | error err =>
        simp only
        rw [← addChannels_consumed_succ_error seed GetChannels calls err hg]
        exact ih (calls + 1) (by omega) (by omega)
      | ok st =>
        simp only
        rw [← addChannels_consumed_succ_ok seed GetChannels calls st hg]
        exact ih (calls + 1) (by omega) (by omega)

/-- Whenever the discovery loop stops, it has made the least number of calls
after which 110 distinct ids have been seen. -/
theorem discoverLoop_stops_only_at_first (seed : List String)
    (GetChannels : Nat → Except String (List String))
    (fuel calls n : Nat) (cl : List String)
    (hbefore : ∀ k, k < calls → distinctCount seed GetChannels k < 110)
    (h : discoverLoop GetChannels fuel calls
      (addChannels [] (consumedIds seed GetChannels calls)) = some (n, cl)) :
    110 ≤ distinctCount seed GetChannels n
    ∧ (∀ k, k < n → distinctCount seed GetChannels k < 110)
    ∧ cl = addChannels [] (consumedIds seed GetChannels n) := by
  induction fuel generalizing calls with
  | zero =>
    rw [discoverLoop] at h
    by_cases hlen : (addChannels [] (consumedIds seed GetChannels calls)).length < 110
    · rw [if_pos hlen] at h; simp at h
    · rw [if_neg hlen] at h
      simp only [Option.some.injEq, Prod.mk.injEq] at h
      obtain ⟨h1, h2⟩ := h
      subst h1
      rw [addChannels_consumed_length] at hlen
      exact ⟨by omega, hbefore, h2.symm⟩
  | succ fuel ih =>
    rw [discoverLoop] at h
    by_cases hlen : (addChannels [] (consumedIds seed GetChannels calls)).length < 110
    · rw [if_pos hlen] at h
      rw [addChannels_consumed_length] at hlen
      have hbefore2 : ∀ k, k < calls + 1 → distinctCount seed GetChannels k < 110 := by
        intro k hk
        by_cases hkc : k = calls
        · subst hkc; exact hlen
        · exact hbefore k (by omega)
      cases hg : GetChannels calls with
      | error err =>
        rw [hg] at h
        simp only at h
        rw [← addChannels_consumed_succ_error seed GetChannels calls err hg] at h
        exact ih (calls + 1) hbefore2 h
      | ok st =>
        rw [hg] at h
        simp only at h
        rw [← addChannels_consumed_succ_ok seed GetChannels calls st hg] at h
        exact ih (calls + 1) hbefore2 h
    · rw [if_neg hlen] at h
      simp only [Option.some.injEq, Prod.mk.injEq] at h
      obtain ⟨h1, h2⟩ := h
      subst h1
      rw [addChannels_consumed_length] at hlen
      exact ⟨by omega, hbefore, h2.symm⟩

/-- C7. For every seed list and every sequence of discovery results (batches
of ids, with or without duplicates, or failures): if `n` is the least number of
results after which the seed and the successful batches hold at least 110
distinct ids, the discovery loop of `downloadStats` makes exactly `n` calls of
`GetChannels` (given fuel for at least `n` iterations) and ends with a set that
has no repeated id, holds exactly the ids of the seed and of the successful
batches among the first `n` results, and whose size is the number of distinct
such ids. -/
theorem discovery_consumes_shortest_reaching_run (seed : List String)
    (GetChannels : Nat → Except String (List String)) (n : Nat)
    (hreach : 110 ≤ distinctCount seed GetChannels n)
    (hmin : ∀ k, k < n → distinctCount seed GetChannels k < 110)
    (fuel : Nat) (hfuel : n ≤ fuel) :
    discoverFrom seed GetChannels fuel =
        some (n, addChannels [] (consumedIds seed GetChannels n))
    ∧ (addChannels [] (consumedIds seed GetChannels n)).Nodup
    ∧ (∀ x, x ∈ addChannels [] (consumedIds seed GetChannels n) ↔
        x ∈ consumedIds seed GetChannels n)
    ∧ (addChannels [] (consumedIds seed GetChannels n)).length =
        distinctCount seed GetChannels n := by
  refine ⟨?_, (addChannels_set _).1, (addChannels_set _).2.1, (addChannels_set _).2.2⟩
  have h := discoverLoop_reaches seed GetChannels n hreach hmin fuel 0 (Nat.zero_le _)
    (by omega)
  have h0 : consumedIds seed GetChannels 0 = seed := by simp [consumedIds]
  rw [h0] at h
  exact h

/-- The discovery loop stops only after the least number of calls after which
110 distinct ids have been seen; in particular it never stops when no number of
calls reaches 110 distinct ids. -/
theorem discoverFrom_some (seed : List String)
    (GetChannels : Nat → Except String (List String)) (fuel n : Nat) (cl : List String)
    (h : discoverFrom seed GetChannels fuel = some (n, cl)) :
    110 ≤ distinctCount seed GetChannels n
    ∧ (∀ k, k < n → distinctCount seed GetChannels k < 110)
    ∧ cl = addChannels [] (consumedIds seed GetChannels n) := by
  have h0 : consumedIds seed GetChannels 0 = seed := by simp [consumedIds]
  apply discoverLoop_stops_only_at_first seed GetChannels fuel 0 n cl (by intro k hk; omega)
  rw [h0]
  exact h

set_option maxRecDepth 100000 in
/-- C7 on a run with a failed call and duplicate ids: 32 seed ids, then 32, 82
and 122 distinct ids after one, two and three calls, so the loop makes exactly
three calls. -/
theorem discovery_consumes_shortest_reaching_run_witness :
    discoverFrom scienceTeam sampleDiscovery 5 =
        some (3, addChannels [] (consumedIds scienceTeam sampleDiscovery 3))
    ∧ (addChannels [] (consumedIds scienceTeam sampleDiscovery 3)).Nodup
    ∧ (∀ x, x ∈ addChannels [] (consumedIds scienceTeam sampleDiscovery 3) ↔
        x ∈ consumedIds scienceTeam sampleDiscovery 3)
    ∧ (addChannels [] (consumedIds scienceTeam sampleDiscovery 3)).length =
        distinctCount scienceTeam sampleDiscovery 3 :=
  discovery_consumes_shortest_reaching_run scienceTeam sampleDiscovery 3
    (by decide) (by decide) 5 (by decide)

set_option maxRecDepth 100000 in
/-- The discovery loop on the sample run: three calls, 122 ids. -/
theorem discoverFrom_sampleDiscovery :
    (discoverFrom scienceTeam sampleDiscovery 5).map (fun r => (r.1, r.2.length)) =
      some (3, 122) := by
  decide

/-! ## Monthly averages: the map of buckets -/

theorem averageBuckets_foldl (entries : List (Nat × List Stats)) (n : List Stats) :
    entries.foldl
      (fun n kv =>
        match bucketAverage kv.2 with
        | some s => n ++ [s]
        | none => n)
      n
    = n ++ entries.filterMap (fun kv => bucketAverage kv.2) := by
  induction entries generalizing n with
  | nil => simp
  | cons kv entries ih =>
    rw [List.foldl_cons, ih]
    cases h : bucketAverage kv.2 with
    | none => simp [List.filterMap_cons, h]
    | some s => simp [List.filterMap_cons, h, List.append_assoc]

theorem averageBuckets_eq (entries : List (Nat × List Stats)) :
    averageBuckets entries = entries.filterMap (fun kv => bucketAverage kv.2) := by
  unfold averageBuckets
  rw [averageBuckets_foldl]
  simp

theorem mapGet_mapSet (m : List (Nat × List Stats)) (k : Nat) (v : List Stats) (k2 : Nat) :
    mapGet (mapSet m k v) k2 = if k2 = k then v else mapGet m k2 := by
  induction m with
  | nil =>
    by_cases h : k2 = k
    · subst h; simp [mapGet, mapSet]
    · have h2 : ¬ k = k2 := fun e => h e.symm
      simp [mapGet, mapSet, h, h2]
  | cons p rest ih =>
    obtain ⟨k1, v1⟩ := p
    by_cases h1 : k1 = k
    · subst h1
      by_cases h : k2 = k1
      · subst h; simp [mapGet, mapSet]
      · have h2 : ¬ k1 = k2 := fun e => h e.symm
        simp [mapGet, mapSet, h, h2]
    · by_cases h : k1 = k2
      · subst h
        simp [mapGet, mapSet, h1]
      · simp [mapGet, mapSet, h1, h, ih]

theorem keys_mapSet (m : List (Nat × List Stats)) (k : Nat) (v : List Stats) :
    (mapSet m k v).map Prod.fst =
      if k ∈ m.map Prod.fst then m.map Prod.fst else m.map Prod.fst ++ [k] := by
  induction m with
  | nil => simp [mapSet]
  | cons p rest ih =>
    obtain ⟨k1, v1⟩ := p
    by_cases h1 : k1 = k
    · subst h1; simp [mapSet]
    · have h2 : ¬ k = k1 := fun e => h1 e.symm
      simp only [mapSet, if_neg h1, List.map_cons, ih, List.mem_cons, h2, false_or]
      by_cases hk : k ∈ rest.map Prod.fst
      · rw [if_pos hk, if_pos hk]
      · rw [if_neg hk, if_neg hk]; rfl

theorem entries_eq_of_nodup (m : List (Nat × List Stats)) (h : (m.map Prod.fst).Nodup) :
    m = (m.map Prod.fst).map (fun k => (k, mapGet m k)) := by
  induction m with
  | nil => rfl
  | cons p rest ih =>
    obtain ⟨k1, v1⟩ := p
    rw [List.map_cons, List.nodup_cons] at h
    rw [List.map_cons, List.map_cons]
    congr 1
    · simp [mapGet]
    · have h3 := ih h.2
      have h4 : (rest.map Prod.fst).map (fun k => (k, mapGet ((k1, v1) :: rest) k)) =
          (rest.map Prod.fst).map (fun k => (k, mapGet rest k)) := by
        apply List.map_congr_left
        intro k hk
        have : ¬ k1 = k := by
          intro e; subst e; exact h.1 hk
        simp [mapGet, this]
      rw [h4]
      exact h3

theorem monthBuckets_snoc (xs : List Stats) (z : Stats) :
    monthBuckets (xs ++ [z]) =
      if z.Views ≠ 0 then
        mapSet (monthBuckets xs) z.RecordedAt.Month
          (mapGet (monthBuckets xs) z.RecordedAt.Month ++ [z])
      else monthBuckets xs := by
  simp [monthBuckets, List.foldl_append]

theorem validOfMonth_snoc (xs : List Stats) (z : Stats) (k : Nat) :
    validOfMonth (xs ++ [z]) k =
      validOfMonth xs k ++ (if z.Views ≠ 0 ∧ z.RecordedAt.Month = k then [z] else []) := by
  simp only [validOfMonth, List.filter_append]
  congr 1
  by_cases h : z.Views ≠ 0 ∧ z.RecordedAt.Month = k
  · rw [if_pos h]; simp [List.filter_cons, h]
  · rw [if_neg h]
    rw [List.filter_cons_of_neg]
    · rfl
    · simpa using h

/-- The map filled by the first loop: its keys are distinct, a month is a key
exactly when it has a sample with non-zero views, and the bucket of a month
holds the samples of that month with non-zero views, in input order. -/
theorem monthBuckets_spec (stats : List Stats) :
    ((monthBuckets stats).map Prod.fst).Nodup
    ∧ (∀ k, k ∈ (monthBuckets stats).map Prod.fst ↔ validOfMonth stats k ≠ [])
    ∧ (∀ k, mapGet (monthBuckets stats) k = validOfMonth stats k) := by
  induction stats using List.reverseRecOn with
  | nil => simp [monthBuckets, validOfMonth, mapGet]
  | append_singleton xs z ih =>
    obtain ⟨hnd, hkeys, hget⟩ := ih
    rw [monthBuckets_snoc]
    by_cases hv : z.Views ≠ 0
    · rw [if_pos hv]
      refine ⟨?_, ?_, ?_⟩
      · rw [keys_mapSet]
        by_cases hk : z.RecordedAt.Month ∈ (monthBuckets xs).map Prod.fst
        · rw [if_pos hk]; exact hnd
        · rw [if_neg hk]
          rw [List.nodup_append]
          refine ⟨hnd, List.nodup_singleton _, ?_⟩
          intro x hx hx2
          rw [List.mem_singleton] at hx2
          subst hx2
          exact hk hx
      · intro k
        rw [keys_mapSet, validOfMonth_snoc]
        by_cases hzk : z.RecordedAt.Month = k
        · subst hzk
          have : z.Views ≠ 0 ∧ z.RecordedAt.Month = z.RecordedAt.Month := ⟨hv, rfl⟩
          rw [if_pos this]
          constructor
          · intro _; simp
          · intro _
            by_cases hk : z.RecordedAt.Month ∈ (monthBuckets xs).map Prod.fst
            · rw [if_pos hk]; exact hk
            · rw [if_neg hk]; simp
        · have : ¬ (z.Views ≠ 0 ∧ z.RecordedAt.Month = k) := fun h => hzk h.2
          rw [if_neg this, List.append_nil, ← hkeys k]
          by_cases hk : z.RecordedAt.Month ∈ (monthBuckets xs).map Prod.fst
          · rw [if_pos hk]
          · rw [if_neg hk, List.mem_append, List.mem_singleton]
            constructor
            · rintro (h | h)
              · exact h
              · exact absurd h.symm hzk
            · intro h; exact Or.inl h
      · intro k
        rw [mapGet_mapSet, validOfMonth_snoc, hget]
        by_cases hzk : k = z.RecordedAt.Month
        · subst hzk
          rw [if_pos rfl, if_pos ⟨hv, rfl⟩]
        · have : ¬ (z.Views ≠ 0 ∧ z.RecordedAt.Month = k) := fun h => hzk h.2.symm
          rw [if_neg hzk, if_neg this, List.append_nil, hget]
    · rw [if_neg hv]
      refine ⟨hnd, ?_, ?_⟩
      · intro k
        rw [validOfMonth_snoc, if_neg (fun h => hv h.1), List.append_nil]
        exact hkeys k
      · intro k
        rw [validOfMonth_snoc, if_neg (fun h => hv h.1), List.append_nil]
        exact hget k

/-- The entries of the map, in insertion order. -/
theorem monthBuckets_eq (stats : List Stats) :
    monthBuckets stats =
      ((monthBuckets stats).map Prod.fst).map (fun k => (k, validOfMonth stats k)) := by
  have h := entries_eq_of_nodup (monthBuckets stats) (monthBuckets_spec stats).1
  have h2 : (fun k => (k, mapGet (monthBuckets stats) k)) =
      (fun k => (k, validOfMonth stats k)) := by
    funext k
    rw [(monthBuckets_spec stats).2.2 k]
  rw [h2] at h
  exact h

/-! ## Monthly averages: the arithmetic -/

theorem wrapInt_of_inIntRange (x : Int) (h : inIntRange x) : wrapInt x = x := by
  unfold inIntRange at h
  unfold wrapInt
  omega

theorem floorMean_eq (xs : List Int) : floorMean xs = xs.sum / (xs.length : Int) := by
  unfold floorMean
  exact Rat.floor_intCast_div_natCast _ _

theorem sumBucket_foldl (v : List Stats) (a b c : Int)
    (hnonneg : ∀ z ∈ v, 0 ≤ z.Subscribers ∧ 0 ≤ z.Views ∧ 0 ≤ z.Videos)
    (ha : 0 ≤ a) (hb : 0 ≤ b) (hc : 0 ≤ c)
    (hsa : a + (v.map (fun z => z.Subscribers)).sum < 2 ^ 63)
    (hsb : b + (v.map (fun z => z.Views)).sum < 2 ^ 63)
    (hsc : c + (v.map (fun z => z.Videos)).sum < 2 ^ 63) :
    v.foldl
      (fun (acc : Int × Int × Int) z =>
        (addInt acc.1 z.Subscribers, addInt acc.2.1 z.Views, addInt acc.2.2 z.Videos))
      (a, b, c)
    = (a + (v.map (fun z => z.Subscribers)).sum, b + (v.map (fun z => z.Views)).sum,
       c + (v.map (fun z => z.Videos)).sum) := by
  induction v generalizing a b c with
  | nil => simp
  | cons z zs ih =>
    have hz := hnonneg z (List.mem_cons_self _ _)
    have hzs : ∀ y ∈ zs, 0 ≤ y.Subscribers ∧ 0 ≤ y.Views ∧ 0 ≤ y.Videos :=
      fun y hy => hnonneg y (List.mem_cons_of_mem _ hy)
    have n1 : 0 ≤ (zs.map (fun z => z.Subscribers)).sum :=
      List.sum_nonneg (by intro x hx; obtain ⟨y, hy, rfl⟩ := List.mem_map.mp hx; exact (hzs y hy).1)
    have n2 : 0 ≤ (zs.map (fun z => z.Views)).sum :=
      List.sum_nonneg (by intro x hx; obtain ⟨y, hy, rfl⟩ := List.mem_map.mp hx; exact (hzs y hy).2.1)
    have n3 : 0 ≤ (zs.map (fun z => z.Videos)).sum :=
      List.sum_nonneg (by intro x hx; obtain ⟨y, hy, rfl⟩ := List.mem_map.mp hx; exact (hzs y hy).2.2)
    simp only [List.map_cons, List.sum_cons] at hsa hsb hsc
    have e1 : addInt a z.Subscribers = a + z.Subscribers :=
      wrapInt_of_inIntRange _ (by unfold inIntRange; omega)
    have e2 : addInt b z.Views = b + z.Views :=
      wrapInt_of_inIntRange _ (by unfold inIntRange; omega)
    have e3 : addInt c z.Videos = c + z.Videos :=
      wrapInt_of_inIntRange _ (by unfold inIntRange; omega)
    rw [List.foldl_cons]
    simp only [e1, e2, e3]
    rw [ih (a + z.Subscribers) (b + z.Views) (c + z.Videos) hzs (by omega) (by omega) (by omega)
      (by omega) (by omega) (by omega)]
    simp only [List.map_cons, List.sum_cons, add_assoc]

theorem divInt_eq_floorMean (xs : List Int) (hpos : 0 < xs.length) (h0 : 0 ≤ xs.sum)
    (hlt : xs.sum < 2 ^ 63) : divInt xs.sum (xs.length : Int) = floorMean xs := by
  rw [floorMean_eq]
  unfold divInt
  rw [Int.tdiv_eq_ediv h0 (by omega)]
  apply wrapInt_of_inIntRange
  have hlen : (0 : Int) < (xs.length : Int) := by omega
  have h1 : 0 ≤ xs.sum / (xs.length : Int) := Int.ediv_nonneg h0 (by omega)
  have h2 : xs.sum / (xs.length : Int) ≤ xs.sum := Int.ediv_le_self _ h0
  unfold inIntRange
  omega

/-- The sample computed for a non-empty bucket of samples with non-negative
counters whose sums stay below 2^63: the date of the first sample and the floor
of the mean of each counter. -/
theorem bucketAverage_eq_mean (z0 : Stats) (rest : List Stats)
    (hnonneg : ∀ z ∈ z0 :: rest, 0 ≤ z.Subscribers ∧ 0 ≤ z.Views ∧ 0 ≤ z.Videos)
    (hsa : ((z0 :: rest).map (fun z => z.Subscribers)).sum < 2 ^ 63)
    (hsb : ((z0 :: rest).map (fun z => z.Views)).sum < 2 ^ 63)
    (hsc : ((z0 :: rest).map (fun z => z.Videos)).sum < 2 ^ 63) :
    bucketAverage (z0 :: rest) =
      some { RecordedAt := z0.RecordedAt,
             Subscribers := floorMean ((z0 :: rest).map (fun z => z.Subscribers)),
             Views := floorMean ((z0 :: rest).map (fun z => z.Views)),
             Videos := floorMean ((z0 :: rest).map (fun z => z.Videos)) } := by
  have n1 : 0 ≤ ((z0 :: rest).map (fun z => z.Subscribers)).sum :=
    List.sum_nonneg (by intro x hx; obtain ⟨y, hy, rfl⟩ := List.mem_map.mp hx; exact (hnonneg y hy).1)
  have n2 : 0 ≤ ((z0 :: rest).map (fun z => z.Views)).sum :=
    List.sum_nonneg (by intro x hx; obtain ⟨y, hy, rfl⟩ := List.mem_map.mp hx; exact (hnonneg y hy).2.1)
  have n3 : 0 ≤ ((z0 :: rest).map (fun z => z.Videos)).sum :=
    List.sum_nonneg (by intro x hx; obtain ⟨y, hy, rfl⟩ := List.mem_map.mp hx; exact (hnonneg y hy).2.2)
  have hs : sumBucket (z0 :: rest) =
      (((z0 :: rest).map (fun z => z.Subscribers)).sum,
       ((z0 :: rest).map (fun z => z.Views)).sum,
       ((z0 :: rest).map (fun z => z.Videos)).sum) := by
    unfold sumBucket
    rw [sumBucket_foldl (z0 :: rest) 0 0 0 hnonneg (le_refl _) (le_refl _) (le_refl _)
      (by omega) (by omega) (by omega)]
    simp only [zero_add]
  have hvl : ((z0 :: rest).length : Int) ≠ 0 := by
    simp only [List.length_cons]; omega
  unfold bucketAverage
  simp only [hs]
  rw [if_pos hvl]
  have d1 := divInt_eq_floorMean ((z0 :: rest).map (fun z => z.Subscribers)) (by simp) n1 hsa
  have d2 := divInt_eq_floorMean ((z0 :: rest).map (fun z => z.Views)) (by simp) n2 hsb
  have d3 := divInt_eq_floorMean ((z0 :: rest).map (fun z => z.Videos)) (by simp) n3 hsc
  simp only [List.length_map] at d1 d2 d3
  rw [d1, d2, d3]

/-! ## Monthly averages: the result -/

theorem map_some_filterMap {α β : Type} (f : α → Option β) (l : List α)
    (h : ∀ x ∈ l, (f x).isSome = true) : (l.filterMap f).map some = l.map f := by
  induction l with
  | nil => rfl
  | cons x xs ih =>
    have hx := h x (List.mem_cons_self _ _)
    have ih2 := ih (fun y hy => h y (List.mem_cons_of_mem _ hy))
    cases hf : f x with
    | none => rw [hf] at hx; simp at hx
    | some b => simp [List.filterMap_cons, hf, ih2]

theorem validOfMonth_mem (stats : List Stats) (k : Nat) (z : Stats)
    (h : z ∈ validOfMonth stats k) : z ∈ stats ∧ z.Views ≠ 0 ∧ z.RecordedAt.Month = k := by
  unfold validOfMonth at h
  rw [List.mem_filter] at h
  exact ⟨h.1, by simpa using h.2⟩

theorem validOfMonth_ne_nil_iff (stats : List Stats) (k : Nat) :
    validOfMonth stats k ≠ [] ↔ ∃ z ∈ stats, z.Views ≠ 0 ∧ z.RecordedAt.Month = k := by
  constructor
  · intro h
    obtain ⟨z, hz⟩ := List.exists_mem_of_ne_nil _ h
    exact ⟨z, validOfMonth_mem stats k z hz⟩
  · rintro ⟨z, hz, hv, hm⟩ hnil
    have : z ∈ validOfMonth stats k := by
      unfold validOfMonth
      rw [List.mem_filter]
      exact ⟨hz, by simpa using ⟨hv, hm⟩⟩
    rw [hnil] at this
    simp at this

/-- The sample computed for the bucket of month `k` is the monthly sample of
the specification, for non-negative counters whose month sums fit an `int`. -/
theorem bucketAverage_validOfMonth (stats : List Stats) (k : Nat)
    (hnonneg : NonNegCounters stats) (hfit : MonthSumsFit stats)
    (hne : validOfMonth stats k ≠ []) :
    bucketAverage (validOfMonth stats k) = monthlySample stats k
    ∧ (monthlySample stats k).isSome = true := by
  obtain ⟨z, hz⟩ := List.exists_mem_of_ne_nil _ hne
  obtain ⟨hzs, _, hzk⟩ := validOfMonth_mem stats k z hz
  have hf := hfit z hzs
  rw [hzk] at hf
  unfold monthlySample
  cases hv : validOfMonth stats k with
  | nil => exact absurd hv hne
  | cons z0 rest =>
    rw [hv] at hf
    refine ⟨?_, rfl⟩
    apply bucketAverage_eq_mean z0 rest _ hf.1 hf.2.1 hf.2.2
    intro y hy
    rw [← hv] at hy
    exact hnonneg y (validOfMonth_mem stats k y hy).1

theorem monthlySample_bigStats :
    monthlySample bigStats 5 =
      some { RecordedAt := { instant := 1588291200000000000, Year := 2020, Month := 5 },
             Subscribers := 1, Views := 4611686018427387904, Videos := 1 } := by
  have hv : validOfMonth bigStats 5 = bigStats := by decide
  unfold monthlySample
  rw [hv]
  simp only [bigStats, floorMean_eq]
  decide

/-- C5, as stated, fails: two samples of the same month with 2^62 views each
have non-negative counters and the floor of the mean of their views is 2^62,
but the sum computed by the loop wraps around and the one sample produced has
-(2^62) views, so the output is not the list of monthly floor means. -/
theorem average_wraps_around :
    NonNegCounters bigStats
    ∧ VisitOrder bigStats (monthBuckets bigStats)
    ∧ averageBuckets (monthBuckets bigStats) =
        [{ RecordedAt := { instant := 1588291200000000000, Year := 2020, Month := 5 },
           Subscribers := 1, Views := -4611686018427387904, Videos := 1 }]
    ∧ floorMean (bigStats.map (fun z => z.Views)) = 4611686018427387904
    ∧ ¬ ∃ months : List Nat,
        months.Nodup
        ∧ (∀ k, k ∈ months ↔ ∃ z ∈ bigStats, z.Views ≠ 0 ∧ z.RecordedAt.Month = k)
        ∧ ((averageBuckets (monthBuckets bigStats)).map some).Perm
            (months.map (monthlySample bigStats)) := by
  have hout : averageBuckets (monthBuckets bigStats) =
      [{ RecordedAt := { instant := 1588291200000000000, Year := 2020, Month := 5 },
         Subscribers := 1, Views := -4611686018427387904, Videos := 1 }] := by decide
  refine ⟨by decide, List.Perm.refl _, hout, ?_, ?_⟩
  · rw [floorMean_eq]
    decide
  · rintro ⟨months, _, hmem, hperm⟩
    rw [hout] at hperm
    have hlen := hperm.length_eq
    simp only [List.map_cons, List.map_nil, List.length_cons, List.length_nil,
      List.length_map] at hlen
    obtain ⟨k, rfl⟩ := List.length_eq_one.mp hlen.symm
    obtain ⟨z, hz, _, hzk⟩ := (hmem k).mp (List.mem_singleton.mpr rfl)
    have hk : k = 5 := by
      have hall : ∀ y ∈ bigStats, y.RecordedAt.Month = 5 := by decide
      rw [← hzk]; exact hall z hz
    subst hk
    simp only [List.map_cons, List.map_nil, monthlySample_bigStats] at hperm
    have heq := List.perm_singleton.mp hperm
    simp at heq

/-- C5, amended.  For every channel whose samples have non-negative counters
and whose per-month sums of each counter (over the samples with non-zero views)
are below 2^63, and for every order in which the map of buckets is visited, the
aggregation loop of `downloadStats` produces, up to order, exactly one sample
per calendar month number that has an input sample with non-zero views and no
other sample: the monthly sample of such a month has the `recordedAt` of the
first input sample of the month with non-zero views and, as counters, the
floors of the arithmetic means of the counters of the month's samples with
non-zero views. -/
theorem average_is_monthly_floor_mean (stats : List Stats)
    (entries : List (Nat × List Stats)) (hvisit : VisitOrder stats entries)
    (hnonneg : NonNegCounters stats) (hfit : MonthSumsFit stats) :
    ∃ months : List Nat,
      months.Nodup
      ∧ (∀ k, k ∈ months ↔ ∃ z ∈ stats, z.Views ≠ 0 ∧ z.RecordedAt.Month = k)
      ∧ ((averageBuckets entries).map some).Perm (months.map (monthlySample stats)) := by
  obtain ⟨hnd, hkeys, _⟩ := monthBuckets_spec stats
  refine ⟨(monthBuckets stats).map Prod.fst, hnd, ?_, ?_⟩
  · intro k
    rw [hkeys k, validOfMonth_ne_nil_iff]
  · have hperm : (averageBuckets entries).Perm (averageBuckets (monthBuckets stats)) := by
      rw [averageBuckets_eq, averageBuckets_eq]
      exact List.Perm.filterMap _ hvisit
    have hcode : averageBuckets (monthBuckets stats) =
        ((monthBuckets stats).map Prod.fst).filterMap (monthlySample stats) := by
      rw [averageBuckets_eq]
      nth_rewrite 1 [monthBuckets_eq stats]
      rw [List.filterMap_map]
      apply List.filterMap_congr
      intro k hk
      exact (bucketAverage_validOfMonth stats k hnonneg hfit ((hkeys k).mp hk)).1
    have hsome : (((monthBuckets stats).map Prod.fst).filterMap (monthlySample stats)).map some =
        ((monthBuckets stats).map Prod.fst).map (monthlySample stats) := by
      apply map_some_filterMap
      intro k hk
      exact (bucketAverage_validOfMonth stats k hnonneg hfit ((hkeys k).mp hk)).2
    rw [← hsome, ← hcode]
    exact hperm.map some

/-- The amended C5 on five daily samples of two months, one with zero views. -/
theorem average_is_monthly_floor_mean_witness :
    ∃ months : List Nat,
      months.Nodup
      ∧ (∀ k, k ∈ months ↔ ∃ z ∈ dailyStats, z.Views ≠ 0 ∧ z.RecordedAt.Month = k)
      ∧ ((averageBuckets (monthBuckets dailyStats).reverse).map some).Perm
          (months.map (monthlySample dailyStats)) :=
  average_is_monthly_floor_mean dailyStats (monthBuckets dailyStats).reverse
    (List.reverse_perm _) (by decide) (by decide)

/-- The aggregation of the five daily samples, visiting December first. -/
theorem average_of_dailyStats :
    averageBuckets (monthBuckets dailyStats).reverse =
      [{ RecordedAt := sDecA.RecordedAt, Subscribers := 1, Views := 15, Videos := 1 },
       { RecordedAt := sNov.RecordedAt, Subscribers := 1, Views := 6, Videos := 1 }] := by
  decide

/-- A channel whose every sample has zero views aggregates to the empty list. -/
theorem average_of_zero_views (stats : List Stats) (entries : List (Nat × List Stats))
    (hvisit : VisitOrder stats entries) (hzero : ∀ z ∈ stats, z.Views = 0) :
    averageBuckets entries = [] := by
  have h : monthBuckets stats = [] := by
    have hk := (monthBuckets_spec stats).2.1
    cases hm : monthBuckets stats with
    | nil => rfl
    | cons p rest =>
      have : p.1 ∈ (monthBuckets stats).map Prod.fst := by rw [hm]; simp
      obtain ⟨z, hz, hv, _⟩ := (validOfMonth_ne_nil_iff stats p.1).mp ((hk p.1).mp this)
      exact absurd (hzero z hz) hv
  unfold VisitOrder at hvisit
  rw [h] at hvisit
  rw [List.perm_nil.mp hvisit]
  rfl

/-! ## Aggregating aggregated samples -/

theorem mapGet_of_not_mem (m : List (Nat × List Stats)) (k : Nat)
    (h : k ∉ m.map Prod.fst) : mapGet m k = [] := by
  induction m with
  | nil => rfl
  | cons p rest ih =>
    obtain ⟨k1, v1⟩ := p
    rw [List.map_cons, List.mem_cons, not_or] at h
    have h1 : ¬ k1 = k := fun e => h.1 e.symm
    simp [mapGet, h1, ih h.2]

theorem mapSet_of_not_mem (m : List (Nat × List Stats)) (k : Nat) (v : List Stats)
    (h : k ∉ m.map Prod.fst) : mapSet m k v = m ++ [(k, v)] := by
  induction m with
  | nil => rfl
  | cons p rest ih =>
    obtain ⟨k1, v1⟩ := p
    rw [List.map_cons, List.mem_cons, not_or] at h
    have h1 : ¬ k1 = k := fun e => h.1 e.symm
    simp [mapSet, h1, ih h.2]

/-- With one sample per month and no zero views, every bucket holds one sample. -/
theorem monthBuckets_of_distinct_months (stats : List Stats)
    (hmonths : stats.Pairwise (fun a b => a.RecordedAt.Month ≠ b.RecordedAt.Month))
    (hviews : ∀ z ∈ stats, z.Views ≠ 0) :
    monthBuckets stats = stats.map (fun z => (z.RecordedAt.Month, [z])) := by
  induction stats using List.reverseRecOn with
  | nil => rfl
  | append_singleton xs z ih =>
    rw [List.pairwise_append] at hmonths
    obtain ⟨hxs, _, hcross⟩ := hmonths
    have ih2 := ih hxs (fun y hy => hviews y (List.mem_append_left _ hy))
    have hz : z.Views ≠ 0 := hviews z (List.mem_append_right _ (List.mem_singleton.mpr rfl))
    have hnot : z.RecordedAt.Month ∉ (monthBuckets xs).map Prod.fst := by
      rw [ih2, List.map_map]
      intro hmem
      obtain ⟨y, hy, hyz⟩ := List.mem_map.mp hmem
      exact hcross y hy z (List.mem_singleton.mpr rfl) hyz
    rw [monthBuckets_snoc, if_pos hz, mapGet_of_not_mem _ _ hnot, mapSet_of_not_mem _ _ _ hnot,
      ih2]
    simp

theorem bucketAverage_singleton (z : Stats)
    (hrange : inIntRange z.Subscribers ∧ inIntRange z.Views ∧ inIntRange z.Videos) :
    bucketAverage [z] = some z := by
  have e1 : addInt 0 z.Subscribers = z.Subscribers := by
    unfold addInt; rw [zero_add]; exact wrapInt_of_inIntRange _ hrange.1
  have e2 : addInt 0 z.Views = z.Views := by
    unfold addInt; rw [zero_add]; exact wrapInt_of_inIntRange _ hrange.2.1
  have e3 : addInt 0 z.Videos = z.Videos := by
    unfold addInt; rw [zero_add]; exact wrapInt_of_inIntRange _ hrange.2.2
  have d : ∀ x : Int, inIntRange x → divInt x ((1 : Nat) : Int) = x := by
    intro x hx
    unfold divInt
    rw [Nat.cast_one, Int.tdiv_one]
    exact wrapInt_of_inIntRange _ hx
  unfold bucketAverage sumBucket
  simp only [List.length_singleton, List.foldl_cons, List.foldl_nil, e1, e2, e3]
  rw [if_pos (by decide), d _ hrange.1, d _ hrange.2.1, d _ hrange.2.2]

/-- C10. Aggregation leaves aggregated input unchanged: for every channel
whose samples have pairwise distinct calendar month numbers and non-zero views
(the counters being values of a Go `int`), and for every order in which the map
of buckets is visited, the aggregation loop of `downloadStats` returns the
input samples, each with the same `recordedAt`, subscribers, views and videos,
up to order. -/
theorem average_of_aggregated (stats : List Stats) (entries : List (Nat × List Stats))
    (hvisit : VisitOrder stats entries)
    (hmonths : stats.Pairwise (fun a b => a.RecordedAt.Month ≠ b.RecordedAt.Month))
    (hviews : ∀ z ∈ stats, z.Views ≠ 0) (hrange : CountersInRange stats) :
    (averageBuckets entries).Perm stats := by
  have hperm : (averageBuckets entries).Perm (averageBuckets (monthBuckets stats)) := by
    rw [averageBuckets_eq, averageBuckets_eq]
    exact List.Perm.filterMap _ hvisit
  have hcode : averageBuckets (monthBuckets stats) = stats := by
    rw [averageBuckets_eq, monthBuckets_of_distinct_months stats hmonths hviews,
      List.filterMap_map]
    have : stats.filterMap ((fun kv : Nat × List Stats => bucketAverage kv.2) ∘
        fun z => (z.RecordedAt.Month, [z])) = stats.filterMap some := by
      apply List.filterMap_congr
      intro z hz
      exact bucketAverage_singleton z (hrange z hz)
    rw [this, List.filterMap_some]
  rw [hcode] at hperm
  exact hperm

/-- C10 on three monthly samples, the map being visited in reverse insertion order. -/
theorem average_of_aggregated_witness :
    (averageBuckets (monthBuckets monthlyStats).reverse).Perm monthlyStats :=
  average_of_aggregated monthlyStats (monthBuckets monthlyStats).reverse
    (List.reverse_perm _) (by decide) (by decide) (by decide)

/-- The aggregation of the three monthly samples, in reverse insertion order. -/
theorem average_of_monthlyStats :
    averageBuckets (monthBuckets monthlyStats).reverse = [sFeb, sDecA, sNov] := by
  decide

end Vidstats
